import Mathlib

/-!
Verification of the Music-Generator composition and mixing engine
(`MusicGenerator.py`) against its natural-language specification.

The Python source is shallowly embedded: pure fragments become Lean
functions over `ℚ`, `ℤ` and `List`; floating-point audio mathematics is
modelled over `ℝ`; every call to the global random number generators
(`random` and `np.random`) is made explicit as a value consumed from an
argument, so that probabilistic code becomes a deterministic function of
its random inputs.
-/

namespace MusicGen

/-! ## Tonal model: modes, interval tables, frequency ladders

`INTERVAL_NAMES` (MusicGenerator.py lines 150-173) maps each mode to its
per-octave semitone interval list.  `MUSICAL_SCALES` (lines 265-268)
derives `base_freq * 2^(interval/12)` per interval, and
`_generate_full_song` (line 2108) builds the four-octave ladder
`[f/2 …] ++ base ++ [f*2 …] ++ [f*4 …]`. -/

inductive Mode where
  | major | dorian | phrygian | lydian | mixolydian | minor | locrian
  | custom | phrygianDominant | harmonicMinor | melodicMinor
  | pentatonicMajor | pentatonicMinor | blues
  deriving DecidableEq, Repr

def intervalNames : Mode → List ℕ
  | .major => [0, 2, 4, 5, 7, 9, 11]
  | .dorian => [0, 2, 3, 5, 7, 9, 10]
  | .phrygian => [0, 1, 3, 5, 7, 8, 10]
  | .lydian => [0, 2, 4, 6, 7, 9, 11]
  | .mixolydian => [0, 2, 4, 5, 7, 9, 10]
  | .minor => [0, 2, 3, 5, 7, 8, 10]
  | .locrian => [0, 1, 3, 5, 6, 8, 10]
  | .custom => [0, 2, 4, 6, 7, 9, 11]
  | .phrygianDominant => [0, 1, 4, 5, 7, 8, 10]
  | .harmonicMinor => [0, 2, 3, 5, 7, 8, 11]
  | .melodicMinor => [0, 2, 3, 5, 7, 9, 11]
  | .pentatonicMajor => [0, 2, 4, 7, 9]
  | .pentatonicMinor => [0, 3, 5, 7, 10]
  | .blues => [0, 3, 5, 6, 7, 10]

noncomputable section RealAudio

/-- One octave of the scale: `MUSICAL_SCALES[f"{note} {scale_name}"]`
(line 268): `[base_freq * (2**(interval/12)) for interval in intervals]`. -/
noncomputable def scaleNotesBase (root : ℝ) (m : Mode) : List ℝ :=
  (intervalNames m).map fun iv : ℕ => root * (2:ℝ) ^ ((iv : ℝ) / 12)

/-- The four-octave ladder of `_generate_full_song` (line 2108):
`[f/2 for f in base] + base + [f*2 for f in base] + [f*4 for f in base]`. -/
def quadOctave (base : List ℝ) : List ℝ :=
  base.map (fun f => f / 2) ++ base ++ base.map (fun f => f * 2)
    ++ base.map (fun f => f * 4)

noncomputable def scaleNotes (root : ℝ) (m : Mode) : List ℝ :=
  quadOctave (scaleNotesBase root m)

/-! ## `_normalize_segment` (lines 2210-2225) -/

/-- `np.sqrt(np.mean(segment**2))`. -/
noncomputable def rmsOf (seg : List ℝ) : ℝ :=
  Real.sqrt ((seg.map fun x => x ^ 2).sum / seg.length)

/-- `np.max(np.abs(l))` for a non-negative fold base; on the non-empty
lists the code passes this equals the true maximum of `|·|`. -/
def peakOf (l : List ℝ) : ℝ :=
  l.foldr (fun x m => max |x| m) 0

/-- `_normalize_segment`: scale to `target_rms`, then rescale by the peak
whenever the peak exceeds `0.99`.  The `segment.size == 0` and
`current_rms < 1e-6` guards return the input unchanged. -/
noncomputable def normalizeSegment (targetRms : ℝ) (seg : List ℝ) : List ℝ :=
  if seg.length = 0 then seg
  else if rmsOf seg < 1e-6 then seg
  else
    let gain := targetRms / rmsOf seg
    let ns := seg.map fun x => x * gain
    let peak := peakOf ns
    if peak > 0.99 then ns.map (fun x => x / peak) else ns

/-! ## Master bus (lines 2302-2313): reverb, fade-out, soft-clip limiter -/

/-- `np.clip(x, -1.0, 1.0)`. -/
def clip1 (x : ℝ) : ℝ := max (-1) (min 1 x)

/-- Sample `i` of the feedback-delay line of `_apply_reverb`
(lines 1888-1894): `reverb_buffer[i] = audio[i] + decay *
reverb_buffer[i - delay]`, zero before the delay.  With `delay == 0`
numpy reads the still-zero cell being written, so the feedback term
vanishes. -/
def reverbVal (delay : ℕ) (decay : ℝ) (audio : List ℝ) (i : ℕ) : ℝ :=
  if i < delay then 0
  else if delay = 0 then audio.getD i 0
  else audio.getD i 0 + decay * reverbVal delay decay audio (i - delay)
  termination_by i
  decreasing_by
    rename_i h1 h2
    omega

/-- `_apply_reverb`: build the feedback buffer, then `np.clip(·, -1, 1)`. -/
def applyReverb (delay : ℕ) (decay : ℝ) (audio : List ℝ) : List ℝ :=
  ((List.range audio.length).map (reverbVal delay decay audio)).map clip1

/-- `np.linspace(1.0, 0.0, fs)[k]` (the fade curve of `_apply_fade_out`,
lines 1880-1886). -/
noncomputable def fadeFactor (fs k : ℕ) : ℝ :=
  if fs ≤ 1 then 1 else 1 - (k : ℝ) / ((fs : ℝ) - 1)

/-- `_apply_fade_out`: multiply the last `fs` samples by the linear fade
curve when the buffer is longer than `fs`. -/
noncomputable def applyFadeOut (fs : ℕ) (audio : List ℝ) : List ℝ :=
  if fs < audio.length then
    audio.mapIdx fun i x =>
      if audio.length - fs ≤ i then x * fadeFactor fs (i - (audio.length - fs))
      else x
  else audio

/-- The final soft-clip limiter (line 2312):
`master_audio = np.tanh(master_with_reverb * 1.2)`. -/
noncomputable def masterLimiter (audio : List ℝ) : List ℝ :=
  audio.map fun x => Real.tanh (x * 1.2)

/-- The master-bus tail of `_music_generation_and_playback_thread`
(lines 2307-2312) downstream of the soundboard convolution: reverb, then
the optional fade-out, then the tanh limiter.  `pre` stands for the
mixed, convolved buffer, quantifying over every combination of part,
drum and soundboard signals. -/
noncomputable def masterChain (delay : ℕ) (decay : ℝ) (fs : ℕ)
    (pre : List ℝ) : List ℝ :=
  masterLimiter (applyFadeOut fs (applyReverb delay decay pre))

end RealAudio

/-! ## `_apply_voice_leading` (lines 1265-1315)

Chord indices are Python ints, embedded as `ℤ`.  The float arithmetic of
`round((last - target) / L)` and of the centroid comparison is embedded
over `ℚ`. -/

/-- Python's `round` (round-half-to-even) on an exact rational. -/
def pyRound (q : ℚ) : ℤ :=
  let f := ⌊q⌋
  let r := q - (f : ℚ)
  if r < 1/2 then f
  else if 1/2 < r then f + 1
  else if f % 2 = 0 then f else f + 1

/-- The inner loop of lines 1270-1277: pick, among the octave copies of
`target` closest to each note of the previous chord, the candidate with
the strictly smallest distance seen so far (ties keep the earlier one). -/
def bestCandidate (L : ℤ) (lastChord : List ℤ) (target : ℤ) : ℤ :=
  (lastChord.foldl
    (fun st lastNote =>
      let cand := target + pyRound (((lastNote - target : ℤ) : ℚ) / (L : ℚ)) * L
      let d := |cand - lastNote|
      match st.2 with
      | none => (cand, some d)
      | some md => if d < md then (cand, some d) else st)
    (target, (none : Option ℤ))).1

/-- Lines 1285-1288: `while adjusted_idx < 0: adjusted_idx += base_scale_len`.
The loop is only reached with `base_scale_len ≥ 1`; the guard `0 < L`
makes the recursion well-founded. -/
def normNeg (L : ℤ) (idx : ℤ) : ℤ :=
  if _h : idx < 0 ∧ 0 < L then normNeg L (idx + L) else idx
  termination_by (-idx).toNat
  decreasing_by omega

/-- Insert into a strictly-sorted list, skipping duplicates; folding it
over a list yields Python's `sorted(list(set(l)))`. -/
def insertSortedDedup (a : ℤ) : List ℤ → List ℤ
  | [] => [a]
  | b :: t =>
    if a < b then a :: b :: t
    else if a = b then b :: t
    else b :: insertSortedDedup a t

/-- `sorted(list(set(l)))` (lines 1289 and 1313). -/
def sortDedup (l : List ℤ) : List ℤ :=
  l.foldr insertSortedDedup []

/-- `final_indices[-1] - final_indices[0]` for the sorted working list. -/
def spanOf (l : List ℤ) : ℤ :=
  l.getLast?.getD 0 - l.head?.getD 0

/-- One iteration of the compaction loop (lines 1294-1309): compare the
outer notes' distances to the centroid and move the farther one inward by
one scale length, then re-sort.  Re-sorting the list in which exactly one
end element was replaced is the same as ordered insertion of the new
value into the remaining sorted list. -/
def tightenStep (L : ℤ) (l : List ℤ) : List ℤ :=
  let lo := l.head?.getD 0
  let hi := l.getLast?.getD 0
  let center : ℚ := (l.sum : ℚ) / (l.length : ℚ)
  if |(hi : ℚ) - center| > |(lo : ℚ) - center| then
    l.dropLast.orderedInsert (· ≤ ·) (hi - L)
  else
    l.tail.orderedInsert (· ≤ ·) (lo + L)

/-- The compaction loop with explicit fuel: repeat `tightenStep` while
`final_indices[-1] - final_indices[0] > base_scale_len`. -/
def tightenF (L : ℤ) : ℕ → List ℤ → List ℤ
  | 0, l => l
  | n + 1, l => if L < spanOf l then tightenF L n (tightenStep L l) else l

/-- A fuel bound under which the loop is proved to reach its exit
condition: span times a factor dominating the end-point multiplicities. -/
def muVL (l : List ℤ) : ℕ :=
  (spanOf l).toNat * (2 * l.length + 1)
    + l.count (l.getLast?.getD 0) + l.count (l.head?.getD 0)

/-- `_apply_voice_leading`: nearest-octave placement, negative-index
normalization, dedup-sort, register compaction, final dedup-sort. -/
def applyVoiceLeading (L : ℤ) (lastChord current : List ℤ) : List ℤ :=
  if lastChord = [] ∨ current = [] then current
  else
    let newChord := current.map (bestCandidate L lastChord)
    let final :=
      if 1 < newChord.length then
        let f1 := sortDedup (newChord.map (normNeg L))
        tightenF L (muVL f1) f1
      else newChord
    sortDedup final

/-! ## Note events

`NoteEvent` mirrors the event dictionaries
`{start_time, duration, freqs, scale_idx, volume, articulation, waveform}`.
Times, durations and volumes are Python floats, embedded as `ℚ`; the
frequency payload is carried opaquely as `ℚ` values looked up in the
scale-notes list parameter.  Events lacking some keys (e.g. schema or
lead-in events without `articulation`) are modelled with a default in
that field. -/

structure NoteEvent where
  start : ℚ
  duration : ℚ
  freqs : List ℚ
  scaleIdx : List ℤ
  volume : ℚ
  articulation : ℚ
  waveform : String
  deriving DecidableEq, Repr

/-- `max(0, min(scale_length - 1, idx))`, the clamping idiom used
throughout the melodic generators. -/
def clampIdx (n : ℤ) (x : ℤ) : ℤ := max 0 (min (n - 1) x)

/-- The index range `[0, scale_length - 1]` of the spec. -/
def IdxInRange (n : ℤ) (i : ℤ) : Prop := 0 ≤ i ∧ i ≤ n - 1

/-- Python float `%` for a positive divisor. -/
def qfmod (a b : ℚ) : ℚ := a - b * ⌊a / b⌋

/-! ## `_generate_melodic_note` (lines 730-789)

The probability table is transformed by tension, structural pull,
contour, inertia and run-breaking; `np.random.choice` then samples by the
cumulative distribution from a uniform draw `u` of the global numpy RNG.
The (elided) atonal branch of the source returns the clamped current
index. -/

def twoNoteTransitions : List (ℤ × ℚ) :=
  [(-1, 20/100), (1, 20/100), (-2, 10/100), (2, 10/100), (0, 5/100),
   (-3, 5/100), (3, 5/100), (-4, 4/100), (4, 4/100), (-5, 3/100), (5, 3/100),
   (-7, 2/100), (7, 2/100), (-12, 1/100), (12, 1/100)]

def updateWeight (k : ℤ) (f : ℚ → ℚ) (w : List (ℤ × ℚ)) : List (ℤ × ℚ) :=
  w.map fun p => if p.1 = k then (p.1, f p.2) else p

/-- Python dict update: multiply the entry if the key exists, otherwise
append the given value as a new entry. -/
def updateOrInsert (k : ℤ) (f : ℚ → ℚ) (v : ℚ) (w : List (ℤ × ℚ)) : List (ℤ × ℚ) :=
  if w.any (fun p => p.1 = k) then updateWeight k f w else w ++ [(k, v)]

/-- `np.random.choice(keys, p=probs)`: select by the cumulative
distribution at the uniform draw `u`; the final key absorbs the tail. -/
def chooseWeighted (u : ℚ) : ℚ → List (ℤ × ℚ) → ℤ
  | _, [] => 0
  | _, [(k, _)] => k
  | acc, (k, p) :: rest => if u < acc + p then k else chooseWeighted u (acc + p) rest

def genMelodicNote (currentIdx : ℤ) (scaleLen : ℤ) (lastDir : ℤ)
    (consecSteps : ℕ) (contour : String) (phraseProgress : ℚ) (tension : ℚ)
    (targetIdx : Option ℤ) (pcsPresent : Bool) (u : ℚ) : ℤ × ℤ × ℕ :=
  if pcsPresent then (clampIdx scaleLen currentIdx, 0, 0)
  else
    let w0 := twoNoteTransitions.map fun p =>
      if 2 < |p.1| then (p.1, p.2 * (1 + tension))
      else if |p.1| ≤ 1 then (p.1, p.2 * (1 - tension * (5/10)))
      else p
    let w1 := match targetIdx with
      | none => w0
      | some t =>
        let dir := Int.sign (t - currentIdx)
        if dir ≠ 0 then updateOrInsert dir (fun p => p * 5) (1/10) w0 else w0
    let cb : ℤ :=
      if contour = "rising" then 1
      else if contour = "falling" then -1
      else if contour = "arch" then (if phraseProgress < 5/10 then 1 else -1)
      else if contour = "valley" then (if phraseProgress < 5/10 then -1 else 1)
      else 0
    let w2 := if w1.any (fun p => p.1 = cb) then
        updateWeight cb (fun p => p * (15/10)) w1 else w1
    let w3 := if w2.any (fun p => p.1 = lastDir) then
        updateWeight lastDir (fun p => p * (12/10)) w2 else w2
    let w4 := if w3.any (fun p => p.1 = -lastDir) ∧ 3 < consecSteps then
        updateWeight (-lastDir) (fun p => p * (18/10)) w3 else w3
    let total := (w4.map Prod.snd).sum
    let probs := w4.map fun p => (p.1, p.2 / total)
    let chosen := chooseWeighted u 0 probs
    let nextIdx := currentIdx + chosen
    let consec := if Int.sign chosen = lastDir then consecSteps + 1 else 1
    (clampIdx scaleLen nextIdx, Int.sign chosen, consec)

/-! ## `_build_harmony_figure` (lines 1161-1172)

The random draws are made explicit: `numNotes` is the 1/2/3 draw; each
iteration consumes a chord-tone pick, a shift decision (`random() < 0.3`)
and a shift direction. -/

def buildHarmonyFigure (baseNoteIdx : ℤ) (scaleLen : ℤ) (baseScaleLen : ℤ)
    (chordIdx : List ℤ) (numNotes : ℕ) (picks : List (ℕ × Bool × Bool)) : List ℤ :=
  if numNotes = 1 then [baseNoteIdx]
  else
    let octaveOffset := (Int.fdiv baseNoteIdx baseScaleLen) * baseScaleLen
    let tones := chordIdx.map fun i => i + octaveOffset
    let notes := (picks.take (numNotes - 1)).foldl
      (fun notes pick =>
        let n0 := tones.getD (pick.1 % tones.length) 0
        let n1 := if pick.2.1 then
            n0 + (if pick.2.2 then 1 else -1) * baseScaleLen else n0
        let n2 := clampIdx scaleLen n1
        if n2 ∉ notes then notes ++ [n2] else notes)
      [baseNoteIdx]
    sortDedup notes

/-! ## `_apply_melodic_embellishments` (lines 1317-1400)

In the source each loop iteration first appends the host event and then
mutates only that event, inserting ornament notes immediately before it
(`insert(-1, ·)`) or replacing it (`pop()` for the arpeggio run), so the
pass is the concatenation of one independent block per host event.  The
random draws per host are bundled into `OrnChoice`. -/

structure OrnChoice where
  skipRoll : ℚ
  typePick : ℕ
  rhythmPick : ℕ
  mordentUp : Bool
  deriving Repr

def arpRhythmNames : List String := ["eighths", "swing", "dotted", "mixed"]

def arpRhythms : String → List ℚ
  | "eighths" => [1/2, 1/2, 1/2, 1/2, 1/2, 1/2, 1/2, 1/2]
  | "swing" => [66/100, 34/100, 66/100, 34/100, 66/100, 34/100, 66/100, 34/100]
  | "dotted" => [75/100, 25/100, 75/100, 25/100, 75/100, 25/100, 75/100, 25/100]
  | _ => [1/2, 1/4, 1/4, 1/2, 1/2]

def arpPattern : List ℕ := [0, 2, 4, 2]

/-- The eligible ornament list of lines 1330-1333. -/
def ornamentChoiceList (e : NoteEvent) (beat : ℚ) (affect : String) : List String :=
  let c0 := ["acciaccatura", "mordent"]
  let c1 := if beat * (9/10) ≤ e.duration then c0 ++ ["turn"] else c0
  let c2 := if beat ≤ e.duration ∧ affect ≠ "melancholy" then
      c1 ++ ["arpeggio_run"] else c1
  if qfmod e.start beat < 1/10 ∧ affect ≠ "melancholy" then
    c2 ++ ["approach_note", "enclosure"] else c2

/-- The arpeggio-run loop (lines 1356-1369): tile the rhythm pattern from
the host's start, clipping the final note to the host's end and skipping
notes shorter than `0.01`; the octave transposition hard-codes `7`. -/
def arpRun (host : NoteEvent) (scaleNotes : List ℚ) (beat : ℚ)
    (chordIdx : List ℤ) (mainIdx : ℤ) (rhythm : List ℚ) : List NoteEvent :=
  (rhythm.enum.foldl
    (fun (st : ℚ × List NoteEvent) jdf =>
      let j := jdf.1
      let cursor := st.1
      let nd0 := jdf.2 * beat
      let nd := if host.start + host.duration < cursor + nd0 then
          host.start + host.duration - cursor else nd0
      if nd < 1/100 then st
      else
        let arpBase := chordIdx.getD ((arpPattern.getD (j % 4) 0) % chordIdx.length) 0
        let om := pyRound ((mainIdx - arpBase : ℤ) / (7 : ℚ))
        let idx := clampIdx (scaleNotes.length : ℤ) (arpBase + om * 7)
        let ev := { host with
          start := cursor, duration := nd, scaleIdx := [idx],
          freqs := [scaleNotes.getD idx.toNat 0] }
        (cursor + nd, st.2 ++ [ev]))
    (host.start, [])).2

/-- The per-host block of `_apply_melodic_embellishments`. -/
def embellishOne (scaleNotes : List ℚ) (beat tension : ℚ) (affect : String)
    (chordProg : List (List ℤ)) (melLen : ℕ) (host : NoteEvent)
    (c : OrnChoice) : List NoteEvent :=
  match host.scaleIdx with
  | [] => [host]
  | mainIdx :: _ =>
    let choices := ornamentChoiceList host beat affect
    if tension - 3/10 < c.skipRoll then [host]
    else
      let typ := choices.getD (c.typePick % choices.length) ""
      if typ = "arpeggio_run" then
        if chordProg.isEmpty then [host]
        else
          let timeInBeats := host.start / beat
          let ratio : ℚ := (melLen : ℚ) / (chordProg.length : ℚ)
          let ci := (⌊timeInBeats / ratio⌋ % (chordProg.length : ℤ)).toNat
          let cur := chordProg.getD ci []
          if cur.isEmpty then [host]
          else
            let rhythm := arpRhythms (arpRhythmNames.getD (c.rhythmPick % 4) "")
            arpRun host scaleNotes beat cur mainIdx rhythm
      else if typ = "acciaccatura" ∧ 0 < mainIdx ∧ 1/20 < host.duration then
        let host' := { host with
          duration := host.duration - 1/20, start := host.start + 1/20 }
        let grace := { host' with
          start := host'.start - 1/20, duration := 1/20,
          scaleIdx := [mainIdx - 1],
          freqs := [scaleNotes.getD (mainIdx - 1).toNat 0] }
        [grace, host']
      else if typ = "mordent" ∧ 0 < mainIdx ∧ mainIdx < (scaleNotes.length : ℤ) - 1 then
        let od := min (host.duration / 2) (beat / 4)
        if od * 2 < host.duration then
          let host' := { host with duration := host.duration - od }
          let nIdx := mainIdx + (if c.mordentUp then 1 else -1)
          let mord := { host' with
            duration := od / 2, scaleIdx := [nIdx],
            freqs := [scaleNotes.getD nIdx.toNat 0] }
          let ret := { host' with start := host'.start + od / 2, duration := od / 2 }
          [mord, ret, host']
        else [host]
      else if typ = "turn" ∧ 0 < mainIdx ∧ mainIdx < (scaleNotes.length : ℤ) - 1 then
        let td := min host.duration (beat / 2)
        if td < host.duration then
          let host' := { host with
            start := host.start + td, duration := host.duration - td }
          let nd := td / 4
          let mk := fun (j : ℕ) (ti : ℤ) =>
            { host' with
              start := host'.start - td + (j : ℚ) * nd, duration := nd,
              scaleIdx := [ti], freqs := [scaleNotes.getD ti.toNat 0] }
          [mk 0 (mainIdx + 1), mk 1 mainIdx, mk 2 (mainIdx - 1), mk 3 mainIdx, host']
        else [host]
      else [host]

/-- `_apply_melodic_embellishments`: below the tension threshold the list
is returned unchanged; otherwise each host event contributes its block. -/
def applyMelodicEmbellishments (scaleNotes : List ℚ) (beat tension : ℚ)
    (affect : String) (chordProg : List (List ℤ)) (melody : List NoteEvent)
    (cs : List OrnChoice) : List NoteEvent :=
  if tension < 4/10 then melody
  else (melody.zip cs).flatMap fun p =>
    embellishOne scaleNotes beat tension affect chordProg melody.length p.1 p.2

/-- The events tile the interval `[t, b]` contiguously: each event
starts where the previous one ended. -/
def TilesFrom (t b : ℚ) : List NoteEvent → Prop
  | [] => t = b
  | e :: r => e.start = t ∧ TilesFrom (t + e.duration) b r

/-- The largest event end time in a list (`0` for the empty list; all
uses have non-negative times). -/
def maxEndOf (l : List NoteEvent) : ℚ :=
  l.foldr (fun e m => max (e.start + e.duration) m) 0

/-! ## `_apply_schema` (lines 1144-1159) -/

def classicalSchemas : String → List ℤ × List ℚ
  | "Prinner" => ([0, -1, -2, -3, -4, 2, 0], [1, 1/2, 1/2, 1/2, 1/2, 1, 1])
  | "Meyer" => ([0, -1, 0, 4, 2, 0], [1, 1, 1, 1, 1, 1])
  | _ => ([0, 1, 2, 0], [1/2, 1/2, 1/2, 1/2])

/-- `_apply_schema`: each step may be altered by ±2 (the 15% draw),
then clamped.  Schema events carry only duration, freqs and scale index
in the source; the other fields are defaulted. -/
def applySchema (scaleNotes : List ℚ) (startIdx : ℤ) (schemaName : String)
    (beat : ℚ) (alters : List (Option ℤ)) : List NoteEvent :=
  let s := classicalSchemas schemaName
  s.1.enum.map fun p =>
    let step' := p.2 + ((alters.getD p.1 none).getD 0)
    let idx := clampIdx (scaleNotes.length : ℤ) (startIdx + step')
    { start := 0, duration := (s.2.getD p.1 0) * beat,
      freqs := [scaleNotes.getD idx.toNat 0], scaleIdx := [idx],
      volume := 0, articulation := 0, waveform := "" }

/-! ## `_transform_and_apply_seed` (lines 1236-1254) -/

/-- The thematic-seed application: the seed is a list of
`(interval, duration)` pairs; the transformation is one of the eight
names drawn at line 1239, `fragLen` the fragmentation draw. -/
def transformAndApplySeed (seed : List (ℤ × ℚ)) (transf : String)
    (startIdx : ℤ) (startTime beat : ℚ) (scale : List ℚ) (volume : ℚ)
    (waveform : String) (fragLen : ℕ) : List NoteEvent × ℤ × ℚ :=
  if seed.isEmpty then ([], startIdx, startTime)
  else
    let su := if transf = "retrograde" then seed.reverse
      else if transf = "fragmentation" then seed.take fragLen
      else seed
    let idx0 := if transf = "sequence_up" then startIdx + 2
      else if transf = "sequence_down" then startIdx - 2
      else startIdx
    su.foldl
      (fun (st : List NoteEvent × ℤ × ℚ) note =>
        let interval := if transf = "inversion" then -note.1 else note.1
        let dur := if transf = "augmentation" then note.2 * 2
          else if transf = "diminution" then note.2 / (15/10)
          else note.2
        let newIdx := clampIdx (scale.length : ℤ) (st.2.1 + interval)
        (st.1 ++ [{
            start := st.2.2, duration := dur * beat,
            freqs := [scale.getD newIdx.toNat 0], scaleIdx := [newIdx],
            volume := volume, articulation := 1, waveform := waveform }],
         newIdx, st.2.2 + dur * beat))
      ([], idx0, startTime)

/-! ## `_create_melodic_lead_in` (lines 1920-1989) -/

/-- The melodic lead-in generator; `style` is the transition draw of
line 1932, `rhythmPick`/`fragPick` the inner draws.  Lead-in events carry
no articulation key in the source; the field is defaulted to 1. -/
def createMelodicLeadIn (startTime beat : ℚ) (scaleNotes : List ℚ)
    (lastEvent : NoteEvent) (nextChordIdx : List ℤ) (baseScaleLen : ℤ)
    (style : String) (rhythmPick fragPick : ℕ) : List NoteEvent :=
  match lastEvent.scaleIdx, nextChordIdx with
  | [], _ => []
  | _, [] => []
  | lastIdx :: _, t0 :: _ =>
    let om := pyRound ((lastIdx - t0 : ℤ) / (baseScaleLen : ℚ))
    let target := clampIdx (scaleNotes.length : ℤ) (t0 + om * baseScaleLen)
    let tstart := startTime - 2 * beat
    if style = "crescendo_run" then
      let dir0 := Int.sign (target - lastIdx)
      let dir := if dir0 = 0 then 1 else dir0
      (List.range 8).map fun i : ℕ =>
        let idx := clampIdx (scaleNotes.length : ℤ) (lastIdx + (i : ℤ) * dir)
        { start := tstart + (i : ℚ) * beat * (25/100), duration := beat * (25/100),
          freqs := [scaleNotes.getD idx.toNat 0], scaleIdx := [idx],
          volume := lastEvent.volume * (8/10 + (2/10) * ((i : ℚ) / 8)),
          articulation := 1, waveform := lastEvent.waveform }
    else if style = "rhythmic_motif" then
      let rhythm : List ℚ := if rhythmPick % 2 = 0 then [1/2, 1/2, 1]
        else [1/4, 1/4, 1/2, 1]
      (rhythm.foldl
        (fun (st : ℚ × List NoteEvent) dur =>
          (st.1 + dur * beat, st.2 ++
            [{ start := tstart + st.1, duration := dur * beat,
               freqs := [scaleNotes.getD target.toNat 0], scaleIdx := [target],
               volume := lastEvent.volume, articulation := 1,
               waveform := lastEvent.waveform }]))
        (0, [])).2
    else if style = "harmonic_anticipation" then
      let arp := (nextChordIdx.take 3).map fun ct =>
        let om2 := pyRound ((target - ct : ℤ) / (baseScaleLen : ℚ))
        clampIdx (scaleNotes.length : ℤ) (ct + om2 * baseScaleLen)
      (List.insertionSort (· ≤ ·) arp).enum.map fun p =>
        { start := tstart + (p.1 : ℚ) * beat * (2/3), duration := beat * (2/3),
          freqs := [scaleNotes.getD p.2.toNat 0], scaleIdx := [p.2],
          volume := lastEvent.volume * (9/10), articulation := 1,
          waveform := lastEvent.waveform }
    else if style = "melodic_fragment" then
      let pat : List ℤ := if fragPick % 3 = 0 then [-2, -1, 0]
        else if fragPick % 3 = 1 then [2, 1, 0]
        else [-3, 1, 0]
      pat.enum.map fun p =>
        let idx := clampIdx (scaleNotes.length : ℤ) (target + p.2)
        { start := tstart + (p.1 : ℚ) * beat * (5/10), duration := beat * (5/10),
          freqs := [scaleNotes.getD idx.toNat 0], scaleIdx := [idx],
          volume := lastEvent.volume, articulation := 1,
          waveform := lastEvent.waveform }
    else []

/-! ## `_get_chord_indices_from_roman` (lines 1610-1681) and the
progression-enrichment passes feeding it (C3)

Python strings are modelled as `String`, with the resolver's character
work (`split('/', 1)`, `.lower()`, substring tests, `replace`) done on
the exploded `List Char`. -/

/-- The mode's name string, the `scale_type` key of the Python tables. -/
def modeName : Mode → String
  | .major => "Major"
  | .dorian => "Dorian"
  | .phrygian => "Phrygian"
  | .lydian => "Lydian"
  | .mixolydian => "Mixolydian"
  | .minor => "Minor"
  | .locrian => "Locrian"
  | .custom => "Custom"
  | .phrygianDominant => "Phrygian Dominant"
  | .harmonicMinor => "Harmonic Minor"
  | .melodicMinor => "Melodic Minor"
  | .pentatonicMajor => "Pentatonic Major"
  | .pentatonicMinor => "Pentatonic Minor"
  | .blues => "Blues"

def allModes : List Mode :=
  [.major, .dorian, .phrygian, .lydian, .mixolydian, .minor, .locrian,
   .custom, .phrygianDominant, .harmonicMinor, .melodicMinor,
   .pentatonicMajor, .pentatonicMinor, .blues]

/-- Python `needle in hay` (substring containment) on exploded strings. -/
def subOf (needle : List Char) : List Char → Bool
  | [] => needle.isEmpty
  | c :: t => needle.isPrefixOf (c :: t) || subOf needle t

/-- Python `str.islower`: at least one cased character and every cased
character lowercase (the cased characters of the chord symbols are the
ASCII letters). -/
def pyIsLower (s : List Char) : Bool :=
  let cs := s.filter Char.isAlpha
  !cs.isEmpty && cs.all Char.isLower

/-- Python `str.isupper`. -/
def pyIsUpper (s : List Char) : Bool :=
  let cs := s.filter Char.isAlpha
  !cs.isEmpty && cs.all Char.isUpper

/-- Python `str.lower` (`°`, `+`, digits are uncased and unchanged). -/
def pyLower (s : List Char) : List Char := s.map Char.toLower

/-- `roman_numeral.split('/', 1)` preceded by the `"/" in roman_numeral`
test: `some (head, tail)` splits at the first `/`. -/
def splitSlash1 : List Char → Option (List Char × List Char)
  | [] => none
  | c :: t =>
    if c = '/' then some ([], t)
    else (splitSlash1 t).map fun p => (c :: p.1, p.2)

/-- `ROMAN_TO_DEGREE` (lines 174-177). -/
def romanToDegree (s : List Char) : Option ℤ :=
  if s = "i".toList ∨ s = "I".toList then some 0
  else if s = "ii".toList ∨ s = "II".toList then some 1
  else if s = "iii".toList ∨ s = "III".toList then some 2
  else if s = "iv".toList ∨ s = "IV".toList then some 3
  else if s = "v".toList ∨ s = "V".toList then some 4
  else if s = "vi".toList ∨ s = "VI".toList then some 5
  else if s = "vii".toList ∨ s = "VII".toList then some 6
  else none

/-- `CHORD_QUALITIES` (lines 178-181). -/
def chordQualities : String → List ℤ
  | "maj" => [0, 4, 7]
  | "min" => [0, 3, 7]
  | "dim" => [0, 3, 6]
  | "aug" => [0, 4, 8]
  | "dom7" => [0, 4, 7, 10]
  | "half-dim7" => [0, 3, 6, 10]
  | _ => []

/-- `DIATONIC_CHORDS` (lines 270-285), one association list per mode. -/
def diatonicChords : Mode → List (String × List ℤ)
  | .major => [("I", [0, 2, 4]), ("ii", [1, 3, 5]), ("iii", [2, 4, 6]),
      ("IV", [3, 5, 7]), ("V", [4, 6, 8]), ("vi", [5, 7, 9]), ("vii°", [6, 8, 10])]
  | .dorian => [("i", [0, 2, 4]), ("ii", [1, 3, 5]), ("III", [2, 4, 6]),
      ("IV", [3, 5, 7]), ("v", [4, 6, 8]), ("vi°", [5, 7, 9]), ("VII", [6, 8, 10])]
  | .phrygian => [("i", [0, 2, 4]), ("II", [1, 3, 5]), ("III", [2, 4, 6]),
      ("iv", [3, 5, 7]), ("v°", [4, 6, 8]), ("VI", [5, 7, 9]), ("vii", [6, 8, 10])]
  | .lydian => [("I", [0, 2, 4]), ("II", [1, 3, 5]), ("iii", [2, 4, 6]),
      ("#iv°", [3, 5, 7]), ("V", [4, 6, 8]), ("vi", [5, 7, 9]), ("vii", [6, 8, 10])]
  | .mixolydian => [("I", [0, 2, 4]), ("ii", [1, 3, 5]), ("iii°", [2, 4, 6]),
      ("IV", [3, 5, 7]), ("v", [4, 6, 8]), ("vi", [5, 7, 9]), ("VII", [6, 8, 10])]
  | .minor => [("i", [0, 2, 4]), ("ii°", [1, 3, 5]), ("III", [2, 4, 6]),
      ("iv", [3, 5, 7]), ("v", [4, 6, 8]), ("VI", [5, 7, 9]), ("VII", [6, 8, 10])]
  | .locrian => [("i°", [0, 2, 4]), ("II", [1, 3, 5]), ("iii", [2, 4, 6]),
      ("iv", [3, 5, 7]), ("V", [4, 6, 8]), ("VI", [5, 7, 9]), ("vii", [6, 8, 10])]
  | .custom => [("i", [0, 2, 4]), ("II", [1, 3, 5]), ("iii", [2, 4, 6]),
      ("IV+", [3, 5, 7]), ("V", [4, 6, 8]), ("vi", [5, 7, 9]), ("vii", [6, 8, 10])]
  | .phrygianDominant => [("i", [0, 2, 4]), ("II", [1, 3, 5]), ("iii", [2, 4, 6]),
      ("iv", [3, 5, 7]), ("V", [4, 6, 8]), ("VI", [5, 7, 9]), ("vii", [6, 8, 10])]
  | .harmonicMinor => [("i", [0, 2, 4]), ("ii°", [1, 3, 5]), ("III+", [2, 4, 6]),
      ("iv", [3, 5, 7]), ("V", [4, 6, 8]), ("VI", [5, 7, 9]), ("vii°", [6, 8, 10])]
  | .melodicMinor => [("i", [0, 2, 4]), ("ii", [1, 3, 5]), ("III+", [2, 4, 6]),
      ("IV", [3, 5, 7]), ("V", [4, 6, 8]), ("vi°", [5, 7, 9]), ("vii°", [6, 8, 10])]
  | .pentatonicMajor => [("I", [0, 1, 2]), ("ii", [1, 2, 3]), ("vi", [4, 0, 1])]
  | .pentatonicMinor => [("i", [0, 1, 2]), ("iv", [2, 3, 4]), ("v", [3, 4, 0])]
  | .blues => [("i", [0, 1, 4]), ("iv", [1, 3, 5]), ("v", [2, 4, 0])]

/-- Association-list lookup, Python `dict[key]` / `dict.get(key)`. -/
def lookupSym (k : String) (t : List (String × List ℤ)) : Option (List ℤ) :=
  (t.find? fun kv => kv.1 = k).map fun kv => kv.2

/-- `roman.replace('°', '').replace('+', '').replace('7', '')`. -/
def cleanSym (s : List Char) : List Char :=
  s.filter fun c => c ≠ '°' && c ≠ '+' && c ≠ '7'

/-- The inner nearest-degree search of the secondary branch (lines
1641-1650): first index minimizing circular semitone distance; the
`float('inf')` start is modelled by a bound larger than any distance. -/
def closestDegree (primary : List ℕ) (s : ℤ) : ℤ :=
  (primary.enum.foldl
    (fun (st : ℤ × ℤ) p =>
      let dist := min |s - (p.2 : ℤ)| (12 - |s - (p.2 : ℤ)|)
      if dist < st.2 then ((p.1 : ℤ), dist) else st)
    (-1, 10000)).1

/-- `_get_chord_indices_from_roman` (lines 1610-1681).  The returned
flag records whether the final `Warning: Could not find chord` fallback
fired; every other path returns its list silently.  The `try/except`
of the secondary branch cannot fire (every lookup is guarded), and the
`+6` branch's missing `else` (Python would return `None`) is modelled
as an empty list. -/
def getChordIndicesFromRoman (roman : String) (m : Mode) : List ℤ × Bool :=
  let table := diatonicChords m
  let L : ℤ := (intervalNames m).length
  match splitSlash1 roman.toList with
  | some (secPart, targetRoman) =>
    match romanToDegree (pyLower targetRoman) with
    | none => ([], false)
    | some targetDegree =>
      let primary := intervalNames m
      if (primary.length : ℤ) ≤ targetDegree then ([], false)
      else
        let offset : ℤ := primary.getD targetDegree.toNat 0
        let quality :=
          if subOf "V".toList secPart then
            (if secPart.contains '7' then chordQualities "dom7"
             else chordQualities "maj")
          else if subOf "vii".toList secPart then
            (if secPart.contains '7' then chordQualities "half-dim7"
             else chordQualities "dim")
          else []
        if quality.isEmpty then ([], false)
        else
          let semis := quality.map fun q => (offset + q) % 12
          let idxs := (semis.map fun s => closestDegree primary s).filter
            fun d => d ≠ -1
          (sortDedup idxs, false)
  | none =>
    if roman = "bII" then
      let b2 := (1 - 1 + L) % L
      ([b2, (b2 + 4) % L, (b2 + 7) % L], false)
    else if subOf "+6".toList roman.toList then
      (if subOf "It".toList roman.toList then [(5 - 1 + L) % L, 0, (3 + 1) % L]
       else if subOf "Fr".toList roman.toList then
         [(5 - 1 + L) % L, 0, 1, (3 + 1) % L]
       else if subOf "Ger".toList roman.toList then
         [(5 - 1 + L) % L, 0, 2 - 1, (3 + 1) % L]
       else [], false)
    else
      match lookupSym roman table with
      | some idxs => (idxs, false)
      | none =>
        match table.find? (fun kv => cleanSym kv.1.toList = cleanSym roman.toList) with
        | some kv => (kv.2, false)
        | none =>
          ((lookupSym "I" table).getD ((lookupSym "i" table).getD []), true)

/-- `is_valid_target` of the secondary-dominant / leading-tone passes
(lines 1574 and 1600). -/
def isValidTarget (next_chord : String) : Bool :=
  (pyIsLower next_chord.toList || pyIsUpper next_chord.toList)
    && !(subOf "i".toList (pyLower next_chord.toList))

/-- `_apply_secondary_dominants` (lines 1562-1584); `draws` supplies the
per-pair `random.random() < 0.35` outcomes. -/
def applySecondaryDominants (progression : List String) (draws : List Bool) :
    List String :=
  if progression.length < 2 then progression
  else
    ((List.range (progression.length - 1)).flatMap fun i =>
      let cur := progression.getD i ""
      let next := progression.getD (i + 1) ""
      if isValidTarget next && draws.getD i false then [cur, "V7/" ++ next]
      else [cur])
    ++ [progression.getLast?.getD ""]

/-- `_apply_secondary_leading_tones` (lines 1587-1608); `gate` is the
`random.random() < 0.7` skip draw, `draws` the per-pair 20% draws. -/
def applySecondaryLeadingTones (progression : List String) (gate : Bool)
    (draws : List Bool) : List String :=
  if progression.length < 2 || gate then progression
  else
    ((List.range (progression.length - 1)).flatMap fun i =>
      let cur := progression.getD i ""
      let next := progression.getD (i + 1) ""
      if isValidTarget next && draws.getD i false then [cur, "vii°7/" ++ next]
      else [cur])
    ++ [progression.getLast?.getD ""]

def majorLikeScales : List String :=
  ["Major", "Lydian", "Mixolydian", "Pentatonic Major"]

/-- `_apply_cadence` (lines 1256-1263); `skip` is the
`random.random() < 0.2` draw. -/
def applyCadence (progression : List String) (m : Mode) (skip : Bool) :
    List String :=
  if progression.length < 3 || skip then progression
  else
    let isMajorScale :=
      majorLikeScales.any fun n => subOf n.toList (modeName m).toList
    progression.dropLast.dropLast ++ (if isMajorScale then ["V", "I"] else ["v", "i"])

/-- `CHORD_PROGRESSIONS['Locrian']` (line 294). -/
def locrianProgressions : String → List String
  | "intro" => ["i°", "iv"]
  | "verse" => ["i°", "VI", "iv", "v°"]
  | "chorus" => ["i°", "iv", "V", "i°"]
  | "bridge" => ["VI", "V", "iv", "iv"]
  | "solo" => ["i°", "iv", "i°", "iv"]
  | "outro" => ["iv", "V", "i°", "i°"]
  | _ => []

/-! ## Reprise assembly: `_apply_dynamic_contouring` (lines 707-729),
`_humanize_part` (lines 685-705) and the per-section time shift
(lines 2137-2141) of `_generate_full_song` (C4)

A reprised section deep-copies the cached section data; every section,
reprise or not, is then contoured and humanized with fresh global-RNG
draws before the assembly shift.  The random draw lists are explicit
parameters. -/

/-- `_apply_dynamic_contouring`: volumes of interior events are scaled
by the local melodic contour and clamped to `[0.1, 1.0]`; start times
and durations are untouched. -/
def applyDynamicContouring (events : List NoteEvent) (d : ℚ) : List NoteEvent :=
  if events.length < 3 then events
  else events.enum.map fun p =>
    let i := p.1
    let e := p.2
    if i = 0 ∨ i = events.length - 1 then e
    else
      let prev := ((events.getD (i - 1) e).scaleIdx).headD 0
      let curr := e.scaleIdx.headD 0
      let next := ((events.getD (i + 1) e).scaleIdx).headD 0
      let v0 := if prev < curr ∧ curr < next then e.volume * (1 + 1/10 * d)
        else if prev < curr ∧ next < curr then e.volume * (1 + 2/10 * d)
        else if curr < prev ∧ next < curr then e.volume * (1 - 2/10 * d)
        else if curr < prev ∧ curr < next then e.volume * (1 - 1/10 * d)
        else e.volume
      { e with volume := max (1/10) (min 1 v0) }

/-- `_humanize_part`: per-event random timing and volume offsets,
clamped below by `0` (time) and to `[0.1, 1.0]` (volume).  The source
draws `tOffs` uniformly from `[-time_variance, time_variance]` with
`time_variance = (60 / bpm) * 0.05`. -/
def humanizePart (events : List NoteEvent) (tOffs vOffs : List ℚ) :
    List NoteEvent :=
  events.enum.map fun p =>
    let e := p.2
    { e with
      start := max 0 (e.start + tOffs.getD p.1 0)
      volume := max (1/10) (min 1 (e.volume + vOffs.getD p.1 0)) }

/-- The per-section assembly shift:
`item_copy['start_time'] += current_time`. -/
def shiftEvents (t : ℚ) (events : List NoteEvent) : List NoteEvent :=
  events.map fun e => { e with start := e.start + t }

end MusicGen

namespace MusicGen

/-! # Theorems -/

/-! ## C8: octave invariant of the frequency ladder -/

theorem quadOctave_getElem (base : List ℝ) (i : ℕ)
    (h : i + base.length < (quadOctave base).length) :
    (quadOctave base)[i + base.length]? =
      ((quadOctave base)[i]?).map fun x => 2 * x := by
  have hlen : (quadOctave base).length = 4 * base.length := by
    simp [quadOctave]; omega
  have hi : i < 3 * base.length := by omega
  simp only [quadOctave, List.append_assoc, List.getElem?_append,
    List.length_map, List.length_append, List.getElem?_map, Nat.add_sub_cancel]
  split_ifs
  all_goals try (exfalso; omega)
  · cases hb : base[i]? <;> simp [hb] <;> ring
  · cases hb : base[i - base.length]? <;> simp [hb] <;> ring
  · cases hb : base[i - base.length - base.length]? <;> simp [hb] <;> ring

/-- C8: for every root frequency and mode, the four-octave ladder built in
`_generate_full_song` satisfies `freq[i + scale_length] = 2 * freq[i]`
whenever both indices are valid, `scale_length` being the number of
intervals of the mode. -/
theorem scaleNotes_octave_invariant (root : ℝ) (m : Mode) (i : ℕ)
    (h : i + (intervalNames m).length < (scaleNotes root m).length) :
    (scaleNotes root m)[i + (intervalNames m).length]? =
      ((scaleNotes root m)[i]?).map fun x => 2 * x := by
  have hb : (scaleNotesBase root m).length = (intervalNames m).length := by
    unfold scaleNotesBase
    exact List.length_map _ _
  have := quadOctave_getElem (scaleNotesBase root m) i
  rw [hb] at this
  exact this h

/-- Witness for C8 at a concrete input: root 440, C-major-shaped mode,
index 0. -/
theorem scaleNotes_octave_invariant_witness :
    (0 + (intervalNames Mode.major).length < (scaleNotes 440 Mode.major).length) ∧
    (scaleNotes 440 Mode.major)[0 + (intervalNames Mode.major).length]? =
      ((scaleNotes 440 Mode.major)[0]?).map (fun x => 2 * x) := by
  have hlen : 0 + (intervalNames Mode.major).length < (scaleNotes 440 Mode.major).length := by
    simp [intervalNames, scaleNotes, quadOctave, scaleNotesBase]
  exact ⟨hlen, scaleNotes_octave_invariant 440 Mode.major 0 hlen⟩

/-! ## C9: normalized segments are bounded by 1 -/

theorem le_peakOf (l : List ℝ) : ∀ y ∈ l, |y| ≤ peakOf l := by
  induction l with
  | nil => intro y hy; cases hy
  | cons a t ih =>
    intro y hy
    rcases List.mem_cons.mp hy with rfl | hy'
    · exact le_max_left _ _
    · exact le_max_of_le_right (ih y hy')

theorem peakOf_nonneg (l : List ℝ) : 0 ≤ peakOf l := by
  induction l with
  | nil => exact le_refl _
  | cons a t ih => exact le_max_of_le_right ih

/-- C9: for a non-empty segment whose RMS is at least `1e-6`, every sample
of `_normalize_segment`'s result has absolute value at most `1`. -/
theorem normalizeSegment_le_one (targetRms : ℝ) (seg : List ℝ)
    (hne : seg ≠ []) (hrms : 1e-6 ≤ rmsOf seg) :
    ∀ x ∈ normalizeSegment targetRms seg, |x| ≤ 1 := by
  intro x hx
  have hlen : ¬ seg.length = 0 := by simpa [List.length_eq_zero] using hne
  have hrms' : ¬ rmsOf seg < 1e-6 := not_lt.mpr hrms
  unfold normalizeSegment at hx
  rw [if_neg hlen, if_neg hrms'] at hx
  set gain := targetRms / rmsOf seg with hg
  set ns := seg.map fun x => x * gain with hns
  by_cases hpk : peakOf ns > 0.99
  · rw [if_pos hpk] at hx
    obtain ⟨y, hy, rfl⟩ := List.mem_map.mp hx
    have h1 : |y| ≤ peakOf ns := le_peakOf ns y hy
    have h2 : (0:ℝ) < peakOf ns := lt_trans (by norm_num) hpk
    rw [abs_div, abs_of_pos h2]
    rw [div_le_one h2]
    exact h1
  · rw [if_neg hpk] at hx
    have h1 : |x| ≤ peakOf ns := le_peakOf ns x hx
    have h2 : peakOf ns ≤ 0.99 := not_lt.mp hpk
    linarith

/-- Witness for C9 at the concrete segment `[1]` (RMS `1`). -/
theorem normalizeSegment_le_one_witness :
    ([(1:ℝ)] ≠ []) ∧ ((1e-6:ℝ) ≤ rmsOf [1]) ∧
    ∀ x ∈ normalizeSegment 0.1 [(1:ℝ)], |x| ≤ 1 := by
  have h1 : rmsOf [(1:ℝ)] = 1 := by
    simp [rmsOf]
  refine ⟨by simp, by rw [h1]; norm_num, ?_⟩
  exact normalizeSegment_le_one 0.1 [1] (by simp) (by rw [h1]; norm_num)

/-! ## C1: the master limiter bounds every sample to [-1, 1] -/

theorem abs_tanh_lt_one (x : ℝ) : |Real.tanh x| < 1 := by
  have hc : 0 < Real.cosh x := Real.cosh_pos x
  have h1 : Real.cosh x - Real.sinh x = Real.exp (-x) := Real.cosh_sub_sinh x
  have h2 : Real.cosh x + Real.sinh x = Real.exp x := Real.cosh_add_sinh x
  have hp1 : 0 < Real.exp (-x) := Real.exp_pos _
  have hp2 : 0 < Real.exp x := Real.exp_pos _
  have hlt : |Real.sinh x| < Real.cosh x := by
    rw [abs_lt]
    constructor <;> nlinarith
  rw [Real.tanh_eq_sinh_div_cosh, abs_div, abs_of_pos hc, div_lt_one hc]
  exact hlt

/-- C1: after the master-bus soft-clip limiter `np.tanh(master * 1.2)`,
every sample of the final master buffer lies within `[-1, 1]`, for every
input buffer fed through the reverb / fade-out / limiter chain (hence for
every combination of part, drum, soundboard and reverb signals). -/
theorem masterChain_bounded (delay : ℕ) (decay : ℝ) (fs : ℕ)
    (pre : List ℝ) :
    ∀ x ∈ masterChain delay decay fs pre, -1 ≤ x ∧ x ≤ 1 := by
  intro x hx
  unfold masterChain masterLimiter at hx
  obtain ⟨y, _, rfl⟩ := List.mem_map.mp hx
  have := abs_tanh_lt_one (y * 1.2)
  rw [abs_lt] at this
  exact ⟨le_of_lt this.1, le_of_lt this.2⟩

/-! ## Sorted-list infrastructure for the voice-leading loop -/

theorem headD_mem {l : List ℤ} (hne : l ≠ []) : l.head?.getD 0 ∈ l := by
  cases l with
  | nil => exact absurd rfl hne
  | cons a t => simp

theorem getLastD_mem {l : List ℤ} (hne : l ≠ []) : l.getLast?.getD 0 ∈ l := by
  induction l with
  | nil => exact absurd rfl hne
  | cons a t ih =>
    cases t with
    | nil => simp
    | cons b t2 =>
      rw [List.getLast?_cons_cons]
      exact List.mem_cons_of_mem a (ih (by simp))

theorem headD_le_of_sorted {l : List ℤ} (hs : l.Sorted (· ≤ ·)) :
    ∀ x ∈ l, l.head?.getD 0 ≤ x := by
  cases l with
  | nil => intro x hx; cases hx
  | cons a t =>
    intro x hx
    rcases List.mem_cons.mp hx with rfl | hx'
    · simp
    · simpa using (List.sorted_cons.mp hs).1 x hx'

theorem le_getLastD_of_sorted {l : List ℤ} (hs : l.Sorted (· ≤ ·)) :
    ∀ x ∈ l, x ≤ l.getLast?.getD 0 := by
  induction l with
  | nil => intro x hx; cases hx
  | cons a t ih =>
    intro x hx
    cases t with
    | nil =>
      rcases List.mem_cons.mp hx with rfl | hx'
      · simp
      · cases hx'
    | cons b t2 =>
      rw [List.getLast?_cons_cons]
      have hst := List.sorted_cons.mp hs
      rcases List.mem_cons.mp hx with rfl | hx'
      · exact le_trans (hst.1 _ (getLastD_mem (l := b :: t2) (by simp)))
          (le_refl _)
      · exact ih hst.2 x hx'

theorem spanOf_short {l : List ℤ} (h : l.length ≤ 1) : spanOf l = 0 := by
  cases l with
  | nil => simp [spanOf]
  | cons a t =>
    cases t with
    | nil => simp [spanOf]
    | cons b t2 => simp at h

theorem length_ge_two_of_span {L : ℤ} {l : List ℤ} (hL : 1 ≤ L)
    (hspan : L < spanOf l) : 2 ≤ l.length := by
  by_contra hc
  have : l.length ≤ 1 := by omega
  rw [spanOf_short this] at hspan
  omega

theorem dropLast_append_getLastD {l : List ℤ} (hne : l ≠ []) :
    l.dropLast ++ [l.getLast?.getD 0] = l := by
  have h1 : l.getLast? = some (l.getLast hne) := List.getLast?_eq_getLast l hne
  rw [h1]
  simpa using List.dropLast_append_getLast hne

theorem headD_cons_tail {l : List ℤ} (hne : l ≠ []) :
    l.head?.getD 0 :: l.tail = l := by
  cases l with
  | nil => exact absurd rfl hne
  | cons a t => simp

theorem headD_mem_dropLast {l : List ℤ} (h2 : 2 ≤ l.length) :
    l.head?.getD 0 ∈ l.dropLast := by
  cases l with
  | nil => simp at h2
  | cons a t =>
    cases t with
    | nil => simp at h2
    | cons b t2 => simp

theorem getLastD_mem_tail {l : List ℤ} (h2 : 2 ≤ l.length) :
    l.getLast?.getD 0 ∈ l.tail := by
  cases l with
  | nil => simp at h2
  | cons a t =>
    cases t with
    | nil => simp at h2
    | cons b t2 =>
      rw [List.getLast?_cons_cons]
      exact getLastD_mem (by simp)

/-! ## `sortDedup` -/

theorem mem_insertSortedDedup {a x : ℤ} :
    ∀ {l : List ℤ}, (x ∈ insertSortedDedup a l ↔ x = a ∨ x ∈ l) := by
  intro l
  induction l with
  | nil => simp [insertSortedDedup]
  | cons b t ih =>
    unfold insertSortedDedup
    split_ifs with h1 h2
    · simp [or_comm, or_assoc, or_left_comm]
    · subst h2; simp [or_comm]
    · simp [ih, or_comm, or_assoc, or_left_comm]

theorem insertSortedDedup_ne_nil {a : ℤ} {l : List ℤ} :
    insertSortedDedup a l ≠ [] := by
  cases l with
  | nil => simp [insertSortedDedup]
  | cons b t =>
    unfold insertSortedDedup
    split_ifs <;> simp

theorem sorted_insertSortedDedup {a : ℤ} {l : List ℤ}
    (hs : l.Sorted (· ≤ ·)) : (insertSortedDedup a l).Sorted (· ≤ ·) := by
  induction l with
  | nil => simp [insertSortedDedup]
  | cons b t ih =>
    have hst := List.sorted_cons.mp hs
    unfold insertSortedDedup
    split_ifs with h1 h2
    · exact List.sorted_cons.mpr ⟨by
        intro y hy
        rcases List.mem_cons.mp hy with rfl | hy'
        · exact le_of_lt h1
        · exact le_trans (le_of_lt h1) (hst.1 y hy'), hs⟩
    · exact hs
    · refine List.sorted_cons.mpr ⟨?_, ih hst.2⟩
      intro y hy
      rcases mem_insertSortedDedup.mp hy with rfl | hy'
      · omega
      · exact hst.1 y hy'

theorem mem_sortDedup {x : ℤ} : ∀ {l : List ℤ}, x ∈ sortDedup l ↔ x ∈ l := by
  intro l
  induction l with
  | nil => simp [sortDedup]
  | cons a t ih =>
    simp only [sortDedup, List.foldr] at *
    rw [mem_insertSortedDedup, ih]
    simp

theorem sorted_sortDedup (l : List ℤ) : (sortDedup l).Sorted (· ≤ ·) := by
  induction l with
  | nil => simp [sortDedup]
  | cons a t ih =>
    simp only [sortDedup, List.foldr] at *
    exact sorted_insertSortedDedup ih

theorem sortDedup_ne_nil {l : List ℤ} (hne : l ≠ []) : sortDedup l ≠ [] := by
  cases l with
  | nil => exact absurd rfl hne
  | cons a t =>
    simp only [sortDedup, List.foldr]
    exact insertSortedDedup_ne_nil

/-- The span can only shrink when passing to `sorted(list(set(l)))`,
since its end points are elements of the original list. -/
theorem spanOf_sortDedup_le {l : List ℤ} (hs : l.Sorted (· ≤ ·))
    (hne : l ≠ []) : spanOf (sortDedup l) ≤ spanOf l := by
  have hne' : sortDedup l ≠ [] := sortDedup_ne_nil hne
  have h1 : (sortDedup l).getLast?.getD 0 ∈ l :=
    mem_sortDedup.mp (getLastD_mem hne')
  have h2 : (sortDedup l).head?.getD 0 ∈ l :=
    mem_sortDedup.mp (headD_mem hne')
  have h3 := le_getLastD_of_sorted hs _ h1
  have h4 := headD_le_of_sorted hs _ h2
  unfold spanOf
  omega

/-! ## The compaction loop decreases `muVL` -/

theorem replaceTop_good {L : ℤ} {l : List ℤ} (hL : 1 ≤ L)
    (hs : l.Sorted (· ≤ ·)) (hspan : L < spanOf l) :
    ((l.dropLast.orderedInsert (· ≤ ·) (l.getLast?.getD 0 - L)).Sorted (· ≤ ·)) ∧
    l.dropLast.orderedInsert (· ≤ ·) (l.getLast?.getD 0 - L) ≠ [] ∧
    (l.dropLast.orderedInsert (· ≤ ·) (l.getLast?.getD 0 - L)).length = l.length ∧
    muVL (l.dropLast.orderedInsert (· ≤ ·) (l.getLast?.getD 0 - L)) < muVL l := by
  have h2 : 2 ≤ l.length := length_ge_two_of_span hL hspan
  have hne : l ≠ [] := by intro h; subst h; simp at h2
  set lo := l.head?.getD 0 with hlo_def
  set hi := l.getLast?.getD 0 with hhi_def
  set D := l.dropLast with hD_def
  set l' := D.orderedInsert (· ≤ ·) (hi - L) with hl'_def
  have hspan' : L < hi - lo := hspan
  have hperm : List.Perm l' ((hi - L) :: D) := List.perm_orderedInsert _ _ _
  have hsD : D.Sorted (· ≤ ·) := List.Pairwise.sublist (List.dropLast_sublist l) hs
  have hs' : l'.Sorted (· ≤ ·) := List.Sorted.orderedInsert (hi - L) D hsD
  have hlenD : D.length = l.length - 1 := List.length_dropLast l
  have hlen' : l'.length = l.length := by
    have := hperm.length_eq
    simp at this
    omega
  have hne' : l' ≠ [] := by
    intro h
    rw [h] at hlen'
    simp at hlen'
    omega
  have hmem' : ∀ y, y ∈ l' ↔ y = hi - L ∨ y ∈ D := by
    intro y
    rw [hperm.mem_iff, List.mem_cons]
  have hdecomp : D ++ [hi] = l := dropLast_append_getLastD hne
  have hDsub : ∀ y ∈ D, y ∈ l := fun y hy => (List.dropLast_sublist l).subset hy
  have hub : ∀ y ∈ l, y ≤ hi := le_getLastD_of_sorted hs
  have hlb : ∀ y ∈ l, lo ≤ y := headD_le_of_sorted hs
  have hloD : lo ∈ D := headD_mem_dropLast h2
  set lo' := l'.head?.getD 0 with hlo'_def
  set hi' := l'.getLast?.getD 0 with hhi'_def
  have hlb' : ∀ y ∈ l', lo' ≤ y := headD_le_of_sorted hs'
  have hub' : ∀ y ∈ l', y ≤ hi' := le_getLastD_of_sorted hs'
  have hlo'_mem : lo' ∈ l' := headD_mem hne'
  have hhi'_mem : hi' ∈ l' := getLastD_mem hne'
  have hlo'_eq : lo' = lo := by
    have le1 : lo' ≤ lo := hlb' lo ((hmem' lo).mpr (Or.inr hloD))
    have ge1 : lo ≤ lo' := by
      rcases (hmem' lo').mp hlo'_mem with h | h
      · omega
      · exact hlb lo' (hDsub lo' h)
    omega
  have hcount_hi : List.count hi l = List.count hi D + 1 := by
    rw [← hdecomp, List.count_append, List.count_singleton_self]
  have hcount_lo : List.count lo l = List.count lo D := by
    have h0 : List.count lo [hi] = 0 :=
      List.count_eq_zero_of_not_mem (by simp; omega)
    rw [← hdecomp, List.count_append, h0]
    omega
  have hcount'_x : ∀ y, List.count y l' = List.count y ((hi - L) :: D) :=
    fun y => hperm.count_eq y
  refine ⟨hs', hne', hlen', ?_⟩
  by_cases hdup : hi ∈ D
  · -- the maximum occurs twice: span unchanged, end multiplicity drops
    have hhi'_eq : hi' = hi := by
      have le1 : hi ≤ hi' := hub' hi ((hmem' hi).mpr (Or.inr hdup))
      have ge1 : hi' ≤ hi := by
        rcases (hmem' hi').mp hhi'_mem with h | h
        · omega
        · exact hub hi' (hDsub hi' h)
      omega
    have hspan_eq : spanOf l' = spanOf l := by
      unfold spanOf
      rw [← hhi'_def, ← hlo'_def, hhi'_eq, hlo'_eq]
    have hc1 : List.count hi' l' = List.count hi l - 1 := by
      rw [hhi'_eq, hcount'_x, List.count_cons_of_ne (by omega)]
      omega
    have hc2 : List.count lo' l' = List.count lo l := by
      rw [hlo'_eq, hcount'_x, List.count_cons_of_ne (by omega), hcount_lo]
    have hpos : 0 < List.count hi l := List.count_pos_iff.mpr (getLastD_mem hne)
    unfold muVL
    rw [← hhi'_def, ← hlo'_def, ← hhi_def, ← hlo_def, hspan_eq, hlen', hc1, hc2]
    omega
  · -- the maximum was unique: the span strictly decreases
    have hhi'_lt : hi' < hi := by
      rcases (hmem' hi').mp hhi'_mem with h | h
      · omega
      · have := hub hi' (hDsub hi' h)
        have hne2 : hi' ≠ hi := fun he => hdup (he ▸ h)
        omega
    have hspan_lt : spanOf l' < spanOf l := by
      unfold spanOf
      rw [← hhi'_def, ← hlo'_def, hlo'_eq]
      omega
    have hspan_nonneg : 0 ≤ spanOf l' := by
      have := hlb' hi' hhi'_mem
      unfold spanOf
      rw [← hhi'_def, ← hlo'_def]
      omega
    have hcle1 : List.count hi' l' ≤ l.length := hlen' ▸ List.count_le_length hi' l'
    have hcle2 : List.count lo' l' ≤ l.length := hlen' ▸ List.count_le_length lo' l'
    have hsnat : (spanOf l').toNat < (spanOf l).toNat := by omega
    have hspos : 1 ≤ (spanOf l).toNat := by omega
    unfold muVL
    rw [← hhi'_def, ← hlo'_def, ← hhi_def, ← hlo_def, hlen']
    have hmul : (spanOf l').toNat * (2 * l.length + 1) + 2 * l.length <
        (spanOf l).toNat * (2 * l.length + 1) := by
      calc (spanOf l').toNat * (2 * l.length + 1) + 2 * l.length
          ≤ ((spanOf l).toNat - 1) * (2 * l.length + 1) + 2 * l.length :=
            Nat.add_le_add_right
              (Nat.mul_le_mul_right _ (by omega)) _
        _ < (spanOf l).toNat * (2 * l.length + 1) := by
            rw [Nat.sub_one_mul]
            have hA : 2 * l.length + 1 ≤ (spanOf l).toNat * (2 * l.length + 1) :=
              Nat.le_mul_of_pos_left _ hspos
            omega
    omega

theorem replaceBot_good {L : ℤ} {l : List ℤ} (hL : 1 ≤ L)
    (hs : l.Sorted (· ≤ ·)) (hspan : L < spanOf l) :
    ((l.tail.orderedInsert (· ≤ ·) (l.head?.getD 0 + L)).Sorted (· ≤ ·)) ∧
    l.tail.orderedInsert (· ≤ ·) (l.head?.getD 0 + L) ≠ [] ∧
    (l.tail.orderedInsert (· ≤ ·) (l.head?.getD 0 + L)).length = l.length ∧
    muVL (l.tail.orderedInsert (· ≤ ·) (l.head?.getD 0 + L)) < muVL l := by
  have h2 : 2 ≤ l.length := length_ge_two_of_span hL hspan
  have hne : l ≠ [] := by intro h; subst h; simp at h2
  set lo := l.head?.getD 0 with hlo_def
  set hi := l.getLast?.getD 0 with hhi_def
  set T := l.tail with hT_def
  set l' := T.orderedInsert (· ≤ ·) (lo + L) with hl'_def
  have hspan' : L < hi - lo := hspan
  have hperm : List.Perm l' ((lo + L) :: T) := List.perm_orderedInsert _ _ _
  have hsT : T.Sorted (· ≤ ·) := List.Pairwise.sublist (List.tail_sublist l) hs
  have hs' : l'.Sorted (· ≤ ·) := List.Sorted.orderedInsert (lo + L) T hsT
  have hlenT : T.length = l.length - 1 := List.length_tail l
  have hlen' : l'.length = l.length := by
    have := hperm.length_eq
    simp at this
    omega
  have hne' : l' ≠ [] := by
    intro h
    rw [h] at hlen'
    simp at hlen'
    omega
  have hmem' : ∀ y, y ∈ l' ↔ y = lo + L ∨ y ∈ T := by
    intro y
    rw [hperm.mem_iff, List.mem_cons]
  have hdecomp : lo :: T = l := headD_cons_tail hne
  have hTsub : ∀ y ∈ T, y ∈ l := fun y hy => (List.tail_sublist l).subset hy
  have hub : ∀ y ∈ l, y ≤ hi := le_getLastD_of_sorted hs
  have hlb : ∀ y ∈ l, lo ≤ y := headD_le_of_sorted hs
  have hhiT : hi ∈ T := getLastD_mem_tail h2
  set lo' := l'.head?.getD 0 with hlo'_def
  set hi' := l'.getLast?.getD 0 with hhi'_def
  have hlb' : ∀ y ∈ l', lo' ≤ y := headD_le_of_sorted hs'
  have hub' : ∀ y ∈ l', y ≤ hi' := le_getLastD_of_sorted hs'
  have hlo'_mem : lo' ∈ l' := headD_mem hne'
  have hhi'_mem : hi' ∈ l' := getLastD_mem hne'
  have hhi'_eq : hi' = hi := by
    have le1 : hi ≤ hi' := hub' hi ((hmem' hi).mpr (Or.inr hhiT))
    have ge1 : hi' ≤ hi := by
      rcases (hmem' hi').mp hhi'_mem with h | h
      · omega
      · exact hub hi' (hTsub hi' h)
    omega
  have hcount_lo : List.count lo l = List.count lo T + 1 := by
    rw [← hdecomp, List.count_cons_self]
  have hcount_hi : List.count hi l = List.count hi T := by
    rw [← hdecomp, List.count_cons_of_ne (by omega)]
  have hcount'_x : ∀ y, List.count y l' = List.count y ((lo + L) :: T) :=
    fun y => hperm.count_eq y
  refine ⟨hs', hne', hlen', ?_⟩
  by_cases hdup : lo ∈ T
  · have hlo'_eq : lo' = lo := by
      have le1 : lo' ≤ lo := hlb' lo ((hmem' lo).mpr (Or.inr hdup))
      have ge1 : lo ≤ lo' := by
        rcases (hmem' lo').mp hlo'_mem with h | h
        · omega
        · exact hlb lo' (hTsub lo' h)
      omega
    have hspan_eq : spanOf l' = spanOf l := by
      unfold spanOf
      rw [← hhi'_def, ← hlo'_def, hhi'_eq, hlo'_eq]
    have hc1 : List.count lo' l' = List.count lo l - 1 := by
      rw [hlo'_eq, hcount'_x, List.count_cons_of_ne (by omega)]
      omega
    have hc2 : List.count hi' l' = List.count hi l := by
      rw [hhi'_eq, hcount'_x, List.count_cons_of_ne (by omega), hcount_hi]
    have hpos : 0 < List.count lo l := List.count_pos_iff.mpr (headD_mem hne)
    unfold muVL
    rw [← hhi'_def, ← hlo'_def, ← hhi_def, ← hlo_def, hspan_eq, hlen', hc1, hc2]
    omega
  · have hlo'_gt : lo < lo' := by
      rcases (hmem' lo').mp hlo'_mem with h | h
      · omega
      · have := hlb lo' (hTsub lo' h)
        have hne2 : lo' ≠ lo := fun he => hdup (he ▸ h)
        omega
    have hspan_lt : spanOf l' < spanOf l := by
      unfold spanOf
      rw [← hhi'_def, ← hlo'_def, hhi'_eq]
      omega
    have hspan_nonneg : 0 ≤ spanOf l' := by
      have := hub' lo' hlo'_mem
      unfold spanOf
      rw [← hhi'_def, ← hlo'_def]
      omega
    have hcle1 : List.count hi' l' ≤ l.length := hlen' ▸ List.count_le_length hi' l'
    have hcle2 : List.count lo' l' ≤ l.length := hlen' ▸ List.count_le_length lo' l'
    have hsnat : (spanOf l').toNat < (spanOf l).toNat := by omega
    have hspos : 1 ≤ (spanOf l).toNat := by omega
    unfold muVL
    rw [← hhi'_def, ← hlo'_def, ← hhi_def, ← hlo_def, hlen']
    have hmul : (spanOf l').toNat * (2 * l.length + 1) + 2 * l.length <
        (spanOf l).toNat * (2 * l.length + 1) := by
      calc (spanOf l').toNat * (2 * l.length + 1) + 2 * l.length
          ≤ ((spanOf l).toNat - 1) * (2 * l.length + 1) + 2 * l.length :=
            Nat.add_le_add_right
              (Nat.mul_le_mul_right _ (by omega)) _
        _ < (spanOf l).toNat * (2 * l.length + 1) := by
            rw [Nat.sub_one_mul]
            have hA : 2 * l.length + 1 ≤ (spanOf l).toNat * (2 * l.length + 1) :=
              Nat.le_mul_of_pos_left _ hspos
            omega
    omega

theorem tightenStep_good {L : ℤ} {l : List ℤ} (hL : 1 ≤ L)
    (hs : l.Sorted (· ≤ ·)) (hspan : L < spanOf l) :
    (tightenStep L l).Sorted (· ≤ ·) ∧ tightenStep L l ≠ [] ∧
    (tightenStep L l).length = l.length ∧ muVL (tightenStep L l) < muVL l := by
  unfold tightenStep
  dsimp only
  split_ifs with h
  · exact replaceTop_good hL hs hspan
  · exact replaceBot_good hL hs hspan

/-- With fuel at least `muVL l`, the loop exits with the span within one
scale length.  Sortedness and non-emptiness are maintained. -/
theorem tightenF_spec {L : ℤ} (hL : 1 ≤ L) :
    ∀ (n : ℕ) (l : List ℤ), l.Sorted (· ≤ ·) → l ≠ [] → muVL l ≤ n →
    spanOf (tightenF L n l) ≤ L ∧ (tightenF L n l).Sorted (· ≤ ·) ∧
    tightenF L n l ≠ [] := by
  intro n
  induction n with
  | zero =>
    intro l hs hne hmu
    by_cases hsp : L < spanOf l
    · exfalso
      have h2 := length_ge_two_of_span hL hsp
      unfold muVL at hmu
      have : 1 ≤ (spanOf l).toNat := by omega
      nlinarith [hmu]
    · exact ⟨not_lt.mp hsp, hs, hne⟩
  | succ n ih =>
    intro l hs hne hmu
    unfold tightenF
    split_ifs with hsp
    · obtain ⟨hs', hne', hlen', hmu'⟩ := tightenStep_good hL hs hsp
      exact ih (tightenStep L l) hs' hne' (by omega)
    · exact ⟨not_lt.mp hsp, hs, hne⟩

/-- C10: `_apply_voice_leading` terminates for every pair of integer
chord-index lists and every base scale length ≥ 1: the register
compaction loop, started from the sorted deduplicated working list the
function builds, always reaches a state whose span is within
`base_scale_len`. -/
theorem voiceLeading_loop_terminates (L : ℤ) (lastChord current : List ℤ)
    (hL : 1 ≤ L) :
    ∃ n, spanOf (tightenF L n
      (sortDedup ((current.map (bestCandidate L lastChord)).map (normNeg L)))) ≤ L := by
  set f1 := sortDedup ((current.map (bestCandidate L lastChord)).map (normNeg L))
    with hf1
  by_cases hne : f1 = []
  · refine ⟨0, ?_⟩
    rw [hne]
    simp only [tightenF, spanOf]
    simp
    omega
  · exact ⟨muVL f1, (tightenF_spec hL (muVL f1) f1 (hf1 ▸ sorted_sortDedup _)
      hne (le_refl _)).1⟩

/-- C5: whenever `_apply_voice_leading` is called with non-empty previous
and current chords and a base scale length ≥ 1, the returned chord's span
between its lowest and highest index is at most one scale length. -/
theorem applyVoiceLeading_span_le (L : ℤ) (lastChord current : List ℤ)
    (hlast : lastChord ≠ []) (hcur : current ≠ []) (hL : 1 ≤ L) :
    spanOf (applyVoiceLeading L lastChord current) ≤ L := by
  unfold applyVoiceLeading
  rw [if_neg (by simp [hlast, hcur])]
  dsimp only
  split_ifs with hlen
  · set f1 := sortDedup ((current.map (bestCandidate L lastChord)).map (normNeg L))
      with hf1
    have hne1 : (current.map (bestCandidate L lastChord)).map (normNeg L) ≠ [] := by
      simp [hcur]
    have hne2 : f1 ≠ [] := hf1 ▸ sortDedup_ne_nil hne1
    obtain ⟨hsp, hsrt, hne3⟩ :=
      tightenF_spec hL (muVL f1) f1 (hf1 ▸ sorted_sortDedup _) hne2 (le_refl _)
    exact le_trans (spanOf_sortDedup_le hsrt hne3) hsp
  · have h1 : (current.map (bestCandidate L lastChord)).length = 1 := by
      have : current.length ≠ 0 := by simpa [List.length_eq_zero] using hcur
      simp only [List.length_map] at hlen ⊢
      omega
    obtain ⟨a, ha⟩ := List.length_eq_one.mp h1
    rw [ha]
    show spanOf (sortDedup [a]) ≤ L
    have : sortDedup [a] = [a] := rfl
    rw [this]
    simp [spanOf]
    omega

/-- Witness for C10 at `L = 7`, previous chord `[0, 2, 4]`, current chord
`[4, 6, 8]`. -/
theorem voiceLeading_loop_terminates_witness :
    (1:ℤ) ≤ 7 ∧ ∃ n, spanOf (tightenF 7 n
      (sortDedup (([4, 6, 8].map (bestCandidate 7 [0, 2, 4])).map (normNeg 7)))) ≤ 7 :=
  ⟨by norm_num, voiceLeading_loop_terminates 7 [0, 2, 4] [4, 6, 8] (by norm_num)⟩

/-- Witness for C5 at `L = 7`, previous chord `[0, 2, 4]`, current chord
`[4, 6, 8]`. -/
theorem applyVoiceLeading_span_le_witness :
    ([0, 2, 4] : List ℤ) ≠ [] ∧ ([4, 6, 8] : List ℤ) ≠ [] ∧ (1:ℤ) ≤ 7 ∧
    spanOf (applyVoiceLeading 7 [0, 2, 4] [4, 6, 8]) ≤ 7 :=
  ⟨by simp, by simp, by norm_num,
    applyVoiceLeading_span_le 7 [0, 2, 4] [4, 6, 8] (by simp) (by simp) (by norm_num)⟩

/-! ## Index-range lemmas for the melodic generators (C6) -/

theorem clampIdx_range {n : ℤ} (hn : 1 ≤ n) (x : ℤ) :
    IdxInRange n (clampIdx n x) := by
  unfold IdxInRange clampIdx
  constructor
  · exact le_max_left _ _
  · exact max_le (by omega) (min_le_left _ _)

theorem foldl_preserves {α σ : Type} (f : σ → α → σ) (P : σ → Prop)
    (hstep : ∀ s a, P s → P (f s a)) :
    ∀ (l : List α) (s : σ), P s → P (l.foldl f s) := by
  intro l
  induction l with
  | nil => intro s hs; exact hs
  | cons a t ih => intro s hs; exact ih (f s a) (hstep s a hs)

theorem mem_of_mem_enumFrom {α : Type} {p : ℕ × α} :
    ∀ {l : List α} {n : ℕ}, p ∈ l.enumFrom n → p.2 ∈ l := by
  intro l
  induction l with
  | nil => intro n h; cases h
  | cons a t ih =>
    intro n h
    rw [List.enumFrom_cons] at h
    rcases List.mem_cons.mp h with rfl | h'
    · simp
    · exact List.mem_cons_of_mem a (ih h')

theorem mem_of_mem_enum {α : Type} {p : ℕ × α} {l : List α}
    (h : p ∈ l.enum) : p.2 ∈ l :=
  mem_of_mem_enumFrom h

theorem arpRun_idx {scaleNotes : List ℚ} (hn : 1 ≤ (scaleNotes.length : ℤ))
    (host : NoteEvent) (beat : ℚ) (chordIdx : List ℤ) (mainIdx : ℤ)
    (rhythm : List ℚ) :
    ∀ e ∈ arpRun host scaleNotes beat chordIdx mainIdx rhythm,
      ∀ i ∈ e.scaleIdx, IdxInRange (scaleNotes.length : ℤ) i := by
  unfold arpRun
  refine foldl_preserves _
    (fun st : ℚ × List NoteEvent =>
      ∀ e ∈ st.2, ∀ i ∈ e.scaleIdx, IdxInRange (scaleNotes.length : ℤ) i)
    ?_ rhythm.enum (host.start, []) (by intro e he; cases he)
  intro s a hs
  dsimp only
  split_ifs
  all_goals
    first
      | exact hs
      | (intro e he
         rcases List.mem_append.mp he with he' | he'
         · exact hs e he'
         · intro i hi
           rw [List.mem_singleton.mp he'] at hi
           simp only [List.mem_singleton] at hi
           rw [hi]
           exact clampIdx_range hn _)

theorem embellishOne_idx {scaleNotes : List ℚ} {host : NoteEvent}
    (hhost : ∀ i ∈ host.scaleIdx, IdxInRange (scaleNotes.length : ℤ) i)
    (beat tension : ℚ) (affect : String) (chordProg : List (List ℤ))
    (melLen : ℕ) (c : OrnChoice) :
    ∀ e ∈ embellishOne scaleNotes beat tension affect chordProg melLen host c,
      ∀ i ∈ e.scaleIdx, IdxInRange (scaleNotes.length : ℤ) i := by
  unfold embellishOne
  rcases hsi : host.scaleIdx with - | ⟨mainIdx, rest⟩
  · dsimp only
    intro e he i hi
    rw [List.mem_singleton.mp he] at hi
    exact hhost i hi
  · have hmain : IdxInRange (scaleNotes.length : ℤ) mainIdx := by
      refine hhost mainIdx ?_
      rw [hsi]
      exact List.mem_cons_self _ _
    obtain ⟨hm1, hm2⟩ := hmain
    have hn : 1 ≤ (scaleNotes.length : ℤ) := by omega
    have hlist : ∀ i ∈ mainIdx :: rest, IdxInRange (scaleNotes.length : ℤ) i :=
      hsi ▸ hhost
    dsimp only
    split_ifs
    · intro e he i hi
      rw [List.mem_singleton.mp he] at hi
      exact hhost i hi
    · intro e he i hi
      rw [List.mem_singleton.mp he] at hi
      exact hhost i hi
    · intro e he i hi
      rw [List.mem_singleton.mp he] at hi
      exact hhost i hi
    · exact fun e he i hi => arpRun_idx hn _ _ _ _ _ e he i hi
    · rename_i hguard
      obtain ⟨-, hg1, -⟩ := hguard
      intro e he i hi
      simp only [List.mem_cons, List.not_mem_nil, or_false] at he
      rcases he with rfl | rfl
      · dsimp only at hi
        simp only [List.mem_singleton] at hi
        subst hi
        exact ⟨by omega, by omega⟩
      · dsimp only at hi
        exact hlist i hi
    · rename_i hguard hdur hup
      obtain ⟨-, hg1, hg2⟩ := hguard
      intro e he i hi
      simp only [List.mem_cons, List.not_mem_nil, or_false] at he
      rcases he with rfl | rfl | rfl
      · dsimp only at hi
        simp only [List.mem_singleton] at hi
        subst hi
        exact ⟨by omega, by omega⟩
      · dsimp only at hi
        exact hlist i hi
      · dsimp only at hi
        exact hlist i hi
    · rename_i hguard hdur hup
      obtain ⟨-, hg1, hg2⟩ := hguard
      intro e he i hi
      simp only [List.mem_cons, List.not_mem_nil, or_false] at he
      rcases he with rfl | rfl | rfl
      · dsimp only at hi
        simp only [List.mem_singleton] at hi
        subst hi
        exact ⟨by omega, by omega⟩
      · dsimp only at hi
        exact hlist i hi
      · dsimp only at hi
        exact hlist i hi
    · intro e he i hi
      rw [List.mem_singleton.mp he] at hi
      exact hhost i hi
    · rename_i hguard hdur
      obtain ⟨-, hg1, hg2⟩ := hguard
      intro e he i hi
      simp only [List.mem_cons, List.not_mem_nil, or_false] at he
      rcases he with rfl | rfl | rfl | rfl | rfl
      · dsimp only at hi
        simp only [List.mem_singleton] at hi
        subst hi
        exact ⟨by omega, by omega⟩
      · dsimp only at hi
        simp only [List.mem_singleton] at hi
        subst hi
        exact ⟨by omega, by omega⟩
      · dsimp only at hi
        simp only [List.mem_singleton] at hi
        subst hi
        exact ⟨by omega, by omega⟩
      · dsimp only at hi
        simp only [List.mem_singleton] at hi
        subst hi
        exact ⟨by omega, by omega⟩
      · dsimp only at hi
        exact hlist i hi
    · intro e he i hi
      rw [List.mem_singleton.mp he] at hi
      exact hhost i hi
    · intro e he i hi
      rw [List.mem_singleton.mp he] at hi
      exact hhost i hi

theorem buildHarmonyFigure_idx {scaleLen baseNoteIdx : ℤ}
    (hbase : IdxInRange scaleLen baseNoteIdx) (baseScaleLen : ℤ)
    (chordIdx : List ℤ) (numNotes : ℕ) (picks : List (ℕ × Bool × Bool)) :
    ∀ x ∈ buildHarmonyFigure baseNoteIdx scaleLen baseScaleLen chordIdx numNotes picks,
      IdxInRange scaleLen x := by
  obtain ⟨hb1, hb2⟩ := hbase
  have hn : 1 ≤ scaleLen := by omega
  unfold buildHarmonyFigure
  split_ifs with h
  · intro x hx
    rw [List.mem_singleton.mp hx]
    exact ⟨hb1, hb2⟩
  · intro x hx
    rw [mem_sortDedup] at hx
    refine foldl_preserves _ (fun acc : List ℤ => ∀ y ∈ acc, IdxInRange scaleLen y)
      ?_ (picks.take (numNotes - 1)) [baseNoteIdx] ?_ x hx
    · intro s a hs
      dsimp only
      split_ifs
      all_goals
        first
          | exact hs
          | (intro y hy
             rcases List.mem_append.mp hy with hy' | hy'
             · exact hs y hy'
             · rw [List.mem_singleton.mp hy']
               exact clampIdx_range hn _)
    · intro y hy
      rw [List.mem_singleton.mp hy]
      exact ⟨hb1, hb2⟩

theorem applySchema_idx {scaleNotes : List ℚ} (hn : 1 ≤ (scaleNotes.length : ℤ))
    (startIdx : ℤ) (schemaName : String) (beat : ℚ) (alters : List (Option ℤ)) :
    ∀ e ∈ applySchema scaleNotes startIdx schemaName beat alters,
      ∀ i ∈ e.scaleIdx, IdxInRange (scaleNotes.length : ℤ) i := by
  intro e he i hi
  unfold applySchema at he
  obtain ⟨p, -, rfl⟩ := List.mem_map.mp he
  dsimp only at hi
  simp only [List.mem_singleton] at hi
  rw [hi]
  exact clampIdx_range hn _

theorem transformAndApplySeed_idx {scale : List ℚ}
    (hn : 1 ≤ (scale.length : ℤ)) (seed : List (ℤ × ℚ)) (transf : String)
    (startIdx : ℤ) (startTime beat : ℚ) (volume : ℚ) (waveform : String)
    (fragLen : ℕ) :
    ∀ e ∈ (transformAndApplySeed seed transf startIdx startTime beat scale
        volume waveform fragLen).1,
      ∀ i ∈ e.scaleIdx, IdxInRange (scale.length : ℤ) i := by
  unfold transformAndApplySeed
  by_cases hemp : seed.isEmpty
  · rw [if_pos hemp]
    intro e he
    cases he
  · rw [if_neg hemp]
    dsimp only
    refine foldl_preserves _
      (fun st : List NoteEvent × ℤ × ℚ =>
        ∀ e ∈ st.1, ∀ i ∈ e.scaleIdx, IdxInRange (scale.length : ℤ) i)
      ?_ _ _ (by intro e he; cases he)
    intro s a hs
    dsimp only
    intro e he
    rcases List.mem_append.mp he with he' | he'
    · exact hs e he'
    · intro i hi
      rw [List.mem_singleton.mp he'] at hi
      simp only [List.mem_singleton] at hi
      rw [hi]
      exact clampIdx_range hn _


theorem createMelodicLeadIn_idx {scaleNotes : List ℚ}
    (hn : 1 ≤ (scaleNotes.length : ℤ)) (startTime beat : ℚ)
    (lastEvent : NoteEvent) (nextChordIdx : List ℤ) (baseScaleLen : ℤ)
    (style : String) (rhythmPick fragPick : ℕ) :
    ∀ e ∈ createMelodicLeadIn startTime beat scaleNotes lastEvent nextChordIdx
        baseScaleLen style rhythmPick fragPick,
      ∀ i ∈ e.scaleIdx, IdxInRange (scaleNotes.length : ℤ) i := by
  unfold createMelodicLeadIn
  obtain ⟨est, edu, efr, esi, evo, ear, ewa⟩ := lastEvent
  dsimp only
  rcases esi with - | ⟨lastIdx, r1⟩
  · rcases nextChordIdx with - | ⟨t0, r2⟩ <;>
      (intro e he
       exact absurd he (List.not_mem_nil e))
  · rcases nextChordIdx with - | ⟨t0, r2⟩
    · intro e he
      exact absurd he (List.not_mem_nil e)
    · dsimp only
      split_ifs
      all_goals
        first
          | (intro e he
             exact absurd he (List.not_mem_nil e))
          | (intro e he i hi
             obtain ⟨p, hp, rfl⟩ := List.mem_map.mp he
             dsimp only at hi
             simp only [List.mem_singleton] at hi
             rw [hi]
             exact clampIdx_range hn _)
          | (intro e he i hi
             obtain ⟨p, hp, rfl⟩ := List.mem_map.mp he
             dsimp only at hi
             simp only [List.mem_singleton] at hi
             have hmem := mem_of_mem_enum hp
             rw [(List.perm_insertionSort _ _).mem_iff] at hmem
             obtain ⟨ct, -, hct⟩ := List.mem_map.mp hmem
             rw [hi, ← hct]
             exact clampIdx_range hn _)
          | (refine foldl_preserves _
              (fun st : ℚ × List NoteEvent =>
                ∀ e ∈ st.2, ∀ i ∈ e.scaleIdx, IdxInRange (scaleNotes.length : ℤ) i)
              ?_ _ _ ?_
             · intro s a hs
               dsimp only
               intro e' he'
               rcases List.mem_append.mp he' with h2 | h2
               · exact hs e' h2
               · intro i hi
                 rw [List.mem_singleton.mp h2] at hi
                 simp only [List.mem_singleton] at hi
                 rw [hi]
                 exact clampIdx_range hn _
             · intro e he
               cases he)

/-- C6: every scale index carried by a note event produced by the
melodic-note generator, the harmony-figure builder, the embellishment
pass, and the schema / thematic-seed / melodic lead-in generators lies
within `[0, scale_length - 1]`: each generator clamps every computed
index into range before emitting an event (the figure builder and the
embellishment pass passing through only indices already in range). -/
theorem generated_scaleIdx_in_range :
    (∀ (currentIdx scaleLen lastDir : ℤ) (consecSteps : ℕ) (contour : String)
       (phraseProgress tension : ℚ) (targetIdx : Option ℤ) (pcs : Bool) (u : ℚ),
       1 ≤ scaleLen →
       IdxInRange scaleLen (genMelodicNote currentIdx scaleLen lastDir
         consecSteps contour phraseProgress tension targetIdx pcs u).1) ∧
    (∀ (baseNoteIdx scaleLen baseScaleLen : ℤ) (chordIdx : List ℤ)
       (numNotes : ℕ) (picks : List (ℕ × Bool × Bool)),
       IdxInRange scaleLen baseNoteIdx →
       ∀ x ∈ buildHarmonyFigure baseNoteIdx scaleLen baseScaleLen chordIdx
           numNotes picks, IdxInRange scaleLen x) ∧
    (∀ (scaleNotes : List ℚ) (beat tension : ℚ) (affect : String)
       (chordProg : List (List ℤ)) (melody : List NoteEvent)
       (cs : List OrnChoice),
       (∀ e ∈ melody, ∀ i ∈ e.scaleIdx, IdxInRange (scaleNotes.length : ℤ) i) →
       ∀ e ∈ applyMelodicEmbellishments scaleNotes beat tension affect
           chordProg melody cs,
         ∀ i ∈ e.scaleIdx, IdxInRange (scaleNotes.length : ℤ) i) ∧
    (∀ (scaleNotes : List ℚ), 1 ≤ (scaleNotes.length : ℤ) →
       ∀ (startIdx : ℤ) (schemaName : String) (beat : ℚ) (alters : List (Option ℤ)),
       ∀ e ∈ applySchema scaleNotes startIdx schemaName beat alters,
         ∀ i ∈ e.scaleIdx, IdxInRange (scaleNotes.length : ℤ) i) ∧
    (∀ (scale : List ℚ), 1 ≤ (scale.length : ℤ) →
       ∀ (seed : List (ℤ × ℚ)) (transf : String) (startIdx : ℤ)
         (startTime beat volume : ℚ) (waveform : String) (fragLen : ℕ),
       ∀ e ∈ (transformAndApplySeed seed transf startIdx startTime beat scale
           volume waveform fragLen).1,
         ∀ i ∈ e.scaleIdx, IdxInRange (scale.length : ℤ) i) ∧
    (∀ (scaleNotes : List ℚ), 1 ≤ (scaleNotes.length : ℤ) →
       ∀ (startTime beat : ℚ) (lastEvent : NoteEvent) (nextChordIdx : List ℤ)
         (baseScaleLen : ℤ) (style : String) (rhythmPick fragPick : ℕ),
       ∀ e ∈ createMelodicLeadIn startTime beat scaleNotes lastEvent
           nextChordIdx baseScaleLen style rhythmPick fragPick,
         ∀ i ∈ e.scaleIdx, IdxInRange (scaleNotes.length : ℤ) i) := by
  refine ⟨?_, ?_, ?_, ?_, ?_, ?_⟩
  · intro currentIdx scaleLen lastDir consecSteps contour phraseProgress
      tension targetIdx pcs u h
    unfold genMelodicNote
    by_cases hpc : pcs = true
    · rw [if_pos hpc]
      exact clampIdx_range h _
    · rw [if_neg hpc]
      dsimp only
      exact clampIdx_range h _
  · intro baseNoteIdx scaleLen baseScaleLen chordIdx numNotes picks hbase
    exact buildHarmonyFigure_idx hbase baseScaleLen chordIdx numNotes picks
  · intro scaleNotes beat tension affect chordProg melody cs hmel
    unfold applyMelodicEmbellishments
    by_cases ht : tension < 4/10
    · rw [if_pos ht]
      exact hmel
    · rw [if_neg ht]
      intro e he
      obtain ⟨p, hp, he'⟩ := List.mem_flatMap.mp he
      exact embellishOne_idx (hmel p.1 (List.of_mem_zip hp).1) beat tension affect
        chordProg melody.length p.2 e he'
  · intro scaleNotes hn startIdx schemaName beat alters
    exact applySchema_idx hn startIdx schemaName beat alters
  · intro scale hn seed transf startIdx startTime beat volume waveform fragLen
    exact transformAndApplySeed_idx hn seed transf startIdx startTime beat
      volume waveform fragLen
  · intro scaleNotes hn startTime beat lastEvent nextChordIdx baseScaleLen
      style rhythmPick fragPick
    exact createMelodicLeadIn_idx hn startTime beat lastEvent nextChordIdx
      baseScaleLen style rhythmPick fragPick

/-- Witness for C6: each generator instantiated on a concrete input, with
the hypotheses discharged there. -/
theorem generated_scaleIdx_in_range_witness :
    ((1:ℤ) ≤ 28 ∧ IdxInRange 28 (genMelodicNote 5 28 0 0 "rising" 0 (1/2)
      none false (1/3)).1) ∧
    (IdxInRange 28 5 ∧ ∀ x ∈ buildHarmonyFigure 5 28 7 [0, 2, 4] 2
      [(1, true, true)], IdxInRange 28 x) ∧
    (∀ e ∈ applyMelodicEmbellishments [440, 466, 493] 1 (1/2) "serene" [[0]]
        [⟨0, 1, [466], [1], 1, 1, "Sine"⟩] [⟨0, 1, 0, true⟩],
      ∀ i ∈ e.scaleIdx, IdxInRange 3 i) ∧
    ((1:ℤ) ≤ 3 ∧ ∀ e ∈ applySchema [440, 466, 493] 1 "Prinner" 1 [],
      ∀ i ∈ e.scaleIdx, IdxInRange 3 i) ∧
    ((1:ℤ) ≤ 3 ∧ ∀ e ∈ (transformAndApplySeed [(1, 1)] "none" 1 0 1
        [440, 466, 493] 1 "Sine" 1).1,
      ∀ i ∈ e.scaleIdx, IdxInRange 3 i) ∧
    ((1:ℤ) ≤ 3 ∧ ∀ e ∈ createMelodicLeadIn 8 1 [440, 466, 493]
        ⟨0, 1, [466], [1], 1, 1, "Sine"⟩ [0, 2, 4] 7 "crescendo_run" 0 0,
      ∀ i ∈ e.scaleIdx, IdxInRange 3 i) := by
  have hmel : ∀ e ∈ [(⟨0, 1, [466], [1], 1, 1, "Sine"⟩ : NoteEvent)],
      ∀ i ∈ e.scaleIdx, IdxInRange ((3:ℕ) : ℤ) i := by
    intro e he i hi
    rw [List.mem_singleton.mp he] at hi
    simp only [List.mem_singleton] at hi
    rw [hi]
    exact ⟨by norm_num, by norm_num⟩
  refine ⟨⟨by norm_num, generated_scaleIdx_in_range.1 5 28 0 0 "rising" 0 (1/2)
      none false (1/3) (by norm_num)⟩,
    ⟨⟨by norm_num, by norm_num⟩, generated_scaleIdx_in_range.2.1 5 28 7 [0, 2, 4]
      2 [(1, true, true)] ⟨by norm_num, by norm_num⟩⟩, ?_, ?_, ?_, ?_⟩
  · exact generated_scaleIdx_in_range.2.2.1 [440, 466, 493] 1 (1/2) "serene"
      [[0]] [⟨0, 1, [466], [1], 1, 1, "Sine"⟩] [⟨0, 1, 0, true⟩] hmel
  · exact ⟨by norm_num, generated_scaleIdx_in_range.2.2.2.1 [440, 466, 493]
      (by norm_num) 1 "Prinner" 1 []⟩
  · exact ⟨by norm_num, generated_scaleIdx_in_range.2.2.2.2.1 [440, 466, 493]
      (by norm_num) [(1, 1)] "none" 1 0 1 1 "Sine" 1⟩
  · exact ⟨by norm_num, generated_scaleIdx_in_range.2.2.2.2.2 [440, 466, 493]
      (by norm_num) 8 1 ⟨0, 1, [466], [1], 1, 1, "Sine"⟩ [0, 2, 4] 7
      "crescendo_run" 0 0⟩

/-! ## Embellishment span behaviour (C7) -/

theorem arpRun_within {host : NoteEvent} (hd : 0 ≤ host.duration)
    (scaleNotes : List ℚ) (beat : ℚ) (chordIdx : List ℤ) (mainIdx : ℤ)
    (rhythm : List ℚ) :
    ∀ e ∈ arpRun host scaleNotes beat chordIdx mainIdx rhythm,
      host.start ≤ e.start ∧
      e.start + e.duration ≤ host.start + host.duration := by
  unfold arpRun
  refine (foldl_preserves _
    (fun st : ℚ × List NoteEvent =>
      (host.start ≤ st.1 ∧ st.1 ≤ host.start + host.duration) ∧
      ∀ e ∈ st.2, host.start ≤ e.start ∧
        e.start + e.duration ≤ host.start + host.duration)
    ?_ rhythm.enum (host.start, [])
    ⟨⟨le_refl _, by linarith⟩, by intro e he; cases he⟩).2
  intro s a hs
  obtain ⟨⟨hc1, hc2⟩, hev⟩ := hs
  dsimp only
  split_ifs with h1 h2 h3
  · exact ⟨⟨hc1, hc2⟩, hev⟩
  · refine ⟨⟨by linarith, by linarith⟩, ?_⟩
    intro e he
    rcases List.mem_append.mp he with he' | he'
    · exact hev e he'
    · rw [List.mem_singleton.mp he']
      exact ⟨hc1, by dsimp only; linarith⟩
  · exact ⟨⟨hc1, hc2⟩, hev⟩
  · refine ⟨⟨by linarith, by linarith⟩, ?_⟩
    intro e he
    rcases List.mem_append.mp he with he' | he'
    · exact hev e he'
    · rw [List.mem_singleton.mp he']
      exact ⟨hc1, by dsimp only; linarith⟩

theorem embellishOne_within (scaleNotes : List ℚ) (beat tension : ℚ)
    (affect : String) (chordProg : List (List ℤ)) (melLen : ℕ)
    (host : NoteEvent) (c : OrnChoice)
    (hd0 : 0 ≤ host.duration) (hb0 : 0 ≤ beat) :
    ∀ e ∈ embellishOne scaleNotes beat tension affect chordProg melLen host c,
      host.start ≤ e.start ∧
      e.start + e.duration ≤ host.start + host.duration := by
  unfold embellishOne
  rcases hsi : host.scaleIdx with - | ⟨mainIdx, rest⟩
  · dsimp only
    intro e he
    rw [List.mem_singleton.mp he]
    exact ⟨le_refl _, le_refl _⟩
  · dsimp only
    split_ifs
    · intro e he
      rw [List.mem_singleton.mp he]
      exact ⟨le_refl _, le_refl _⟩
    · intro e he
      rw [List.mem_singleton.mp he]
      exact ⟨le_refl _, le_refl _⟩
    · intro e he
      rw [List.mem_singleton.mp he]
      exact ⟨le_refl _, le_refl _⟩
    · exact arpRun_within hd0 _ _ _ _ _
    · rename_i hguard
      obtain ⟨-, -, hg2⟩ := hguard
      intro e he
      simp only [List.mem_cons, List.not_mem_nil, or_false] at he
      rcases he with rfl | rfl <;> dsimp only <;> constructor <;> linarith
    · rename_i hguard hdur hup
      obtain ⟨-, -, -⟩ := hguard
      have hod1 : min (host.duration / 2) (beat / 4) ≤ host.duration / 2 :=
        min_le_left _ _
      have hod0 : 0 ≤ min (host.duration / 2) (beat / 4) :=
        le_min (by linarith) (by linarith)
      intro e he
      simp only [List.mem_cons, List.not_mem_nil, or_false] at he
      rcases he with rfl | rfl | rfl <;> dsimp only <;> constructor <;> linarith
    · rename_i hguard hdur hup
      obtain ⟨-, -, -⟩ := hguard
      have hod1 : min (host.duration / 2) (beat / 4) ≤ host.duration / 2 :=
        min_le_left _ _
      have hod0 : 0 ≤ min (host.duration / 2) (beat / 4) :=
        le_min (by linarith) (by linarith)
      intro e he
      simp only [List.mem_cons, List.not_mem_nil, or_false] at he
      rcases he with rfl | rfl | rfl <;> dsimp only <;> constructor <;> linarith
    · intro e he
      rw [List.mem_singleton.mp he]
      exact ⟨le_refl _, le_refl _⟩
    · rename_i hguard hdur
      obtain ⟨-, -, -⟩ := hguard
      have htd1 : min host.duration (beat / 2) ≤ host.duration := min_le_left _ _
      have htd0 : 0 ≤ min host.duration (beat / 2) := le_min hd0 (by linarith)
      intro e he
      simp only [List.mem_cons, List.not_mem_nil, or_false] at he
      rcases he with rfl | rfl | rfl | rfl | rfl <;> dsimp only <;>
        constructor <;> linarith
    · intro e he
      rw [List.mem_singleton.mp he]
      exact ⟨le_refl _, le_refl _⟩
    · intro e he
      rw [List.mem_singleton.mp he]
      exact ⟨le_refl _, le_refl _⟩

set_option maxHeartbeats 2000000 in
/-- C7 counterexample: embellishments do not always preserve the host's
original time span.  A mordent on a host `[0, 1]` (beat 1) leaves the
final `ornament_dur = 1/4` uncovered, because the host keeps its start
while losing `ornament_dur` from its end; an arpeggio run on a host
`[0, 3]` (beat 1/2, rhythm total 2) covers only `[0, 2]`. -/
theorem embellishment_span_counterexample :
    maxEndOf (applyMelodicEmbellishments [440, 466, 493] 1 (1/2) "serene"
      [[0]] [⟨0, 1, [466], [1], 1, 1, "Sine"⟩] [⟨0, 1, 0, true⟩]) = 3/4 ∧
    ((3:ℚ)/4 ≠ 0 + 1) ∧
    maxEndOf (applyMelodicEmbellishments [440, 466, 493] (1/2) (1/2) "serene"
      [[0, 2, 4]] [⟨0, 3, [466], [1], 1, 1, "Sine"⟩] [⟨0, 3, 0, true⟩]) = 2 ∧
    ((2:ℚ) ≠ 0 + 3) := by
  refine ⟨?_, by norm_num, ?_, by norm_num⟩
  · norm_num [applyMelodicEmbellishments, embellishOne, ornamentChoiceList,
      qfmod, maxEndOf, List.getD, sup_eq_max, max_def, inf_eq_min, min_def,
      show (("serene":String) = "melancholy") = False from by decide,
      show (("mordent":String) = "arpeggio_run") = False from by decide,
      show (("mordent":String) = "acciaccatura") = False from by decide]
  · norm_num [applyMelodicEmbellishments, embellishOne, ornamentChoiceList,
      qfmod, maxEndOf, arpRun, arpRhythms, arpRhythmNames, arpPattern, pyRound,
      clampIdx, List.getD, List.enum, List.enumFrom,
      sup_eq_max, max_def, inf_eq_min, min_def,
      show (("serene":String) = "melancholy") = False from by decide,
      show (("arpeggio_run":String) = "arpeggio_run") = True from by decide,
      show (("eighths":String) = "eighths") = True from by decide]

/-- C7 (amended): every event produced by the embellishment pass lies
inside its host's original time span — no ornament or replacement note
starts before the host's original start or ends after the host's
original end (assuming non-negative durations and beat) — and each host
contributes an independent block, so no other event is moved.  The
blocks need not cover the host's span exactly (see the counterexample:
the mordent leaves the final `ornament_dur` uncovered and an arpeggio
run stops at the rhythm total). -/
theorem applyMelodicEmbellishments_within (scaleNotes : List ℚ)
    (beat tension : ℚ) (affect : String) (chordProg : List (List ℤ))
    (melody : List NoteEvent) (cs : List OrnChoice)
    (hd : ∀ ev ∈ melody, 0 ≤ ev.duration) (hb : 0 ≤ beat) :
    ∀ e ∈ applyMelodicEmbellishments scaleNotes beat tension affect
        chordProg melody cs,
      ∃ host ∈ melody, host.start ≤ e.start ∧
        e.start + e.duration ≤ host.start + host.duration := by
  unfold applyMelodicEmbellishments
  split_ifs
  · intro e he
    exact ⟨e, he, le_refl _, le_refl _⟩
  · intro e he
    rcases List.mem_flatMap.mp he with ⟨p, hp, hep⟩
    have hmem := List.of_mem_zip hp
    exact ⟨p.1, hmem.1,
      embellishOne_within scaleNotes beat tension affect chordProg
        melody.length p.1 p.2 (hd p.1 hmem.1) hb e hep⟩

/-- C2 (supporting the code-bug report): the song generator has no seed
mechanism — `random.seed` / `numpy.random.seed` are never called and no
configuration key carries a seed — so every generation consumes fresh
draws from the global RNG streams.  The event stream genuinely depends
on those draws: `_generate_melodic_note` at one and the same program
state returns different notes for different values of the
`np.random.choice` draw (line 781), so two runs with differing global
RNG states produce different melodies. -/
theorem generation_depends_on_global_rng :
    genMelodicNote 5 28 0 0 "" 0 0 none false 0
      ≠ genMelodicNote 5 28 0 0 "" 0 0 none false (99/100) := by
  norm_num [genMelodicNote, twoNoteTransitions, updateWeight, updateOrInsert,
    chooseWeighted, clampIdx, sup_eq_max, max_def, inf_eq_min, min_def,
    show (("":String) = "rising") = False from by decide,
    show (("":String) = "falling") = False from by decide,
    show (("":String) = "arch") = False from by decide,
    show (("":String) = "valley") = False from by decide]

/-- C3 counterexample: from the Locrian `verse` progression
`['i°', 'VI', 'iv', 'v°']`, `_apply_secondary_dominants` can emit the
symbol `V7/v°` (the target `v°` is lowercase and contains no `i`, so it
passes `is_valid_target`), yet the resolver returns the empty list with
no warning, because `'v°'.lower()` is not a key of `ROMAN_TO_DEGREE`;
and the cadence pass appends `v` in Locrian, for which the tonic
fallback `get('I', get('i', []))` is also empty (the Locrian table's
tonic key is `i°`), so the warned fallback is empty as well. -/
theorem chord_resolver_counterexample :
    locrianProgressions "verse" = ["i°", "VI", "iv", "v°"] ∧
    applySecondaryDominants ["i°", "VI", "iv", "v°"] [false, false, true]
      = ["i°", "VI", "iv", "V7/v°", "v°"] ∧
    getChordIndicesFromRoman "V7/v°" Mode.locrian = ([], false) ∧
    applyCadence ["i°", "VI", "iv", "v°"] Mode.locrian false
      = ["i°", "VI", "v", "i"] ∧
    getChordIndicesFromRoman "v" Mode.locrian = ([], true) := by decide

/-- C3 (amended): the resolver does return a non-empty degree list for
every diatonic table symbol of every mode, for the chromatic symbols
`bII`, `It+6`, `Fr+6`, `Ger+6`, for secondary symbols whose target is a
plain `V`/`v`, and — outside Locrian — for the cadence symbols
`v`, `i`, `V`, `I` (via direct lookup, the cleaned-symbol match, or the
warned tonic fallback).  The exceptions are secondary symbols whose
target is not a bare numeral (empty, unwarned) and the Locrian tonic
fallback (empty, warned); see the counterexample. -/
theorem chord_resolver_amended :
    (∀ m ∈ allModes, ∀ kv ∈ diatonicChords m,
      (getChordIndicesFromRoman kv.1 m).1 ≠ []) ∧
    (∀ m ∈ allModes, ∀ r ∈ (["bII", "It+6", "Fr+6", "Ger+6"] : List String),
      (getChordIndicesFromRoman r m).1 ≠ []) ∧
    (∀ m ∈ allModes, ∀ r ∈ (["V7/V", "V7/v", "vii°7/V", "vii°7/v"] : List String),
      (getChordIndicesFromRoman r m).1 ≠ []) ∧
    (∀ m ∈ allModes, m ≠ Mode.locrian →
      ∀ r ∈ (["v", "i", "V", "I"] : List String),
      (getChordIndicesFromRoman r m).1 ≠ []) := by decide

/-- Witness for C3 (amended): the cadence symbol `v` resolves in Major. -/
theorem chord_resolver_amended_witness :
    Mode.major ∈ allModes ∧ Mode.major ≠ Mode.locrian ∧
    ("v" : String) ∈ (["v", "i", "V", "I"] : List String) ∧
    (getChordIndicesFromRoman "v" Mode.major).1 ≠ [] :=
  ⟨by decide, by decide, by decide,
    chord_resolver_amended.2.2.2 Mode.major (by decide) (by decide) "v"
      (by decide)⟩

/-- Witness for C7 (amended) on a concrete one-event melody. -/
theorem applyMelodicEmbellishments_within_witness :
    (∀ ev ∈ [(⟨0, 1, [466], [1], 1, 1, "Sine"⟩ : NoteEvent)],
      0 ≤ ev.duration) ∧ (0:ℚ) ≤ 1 ∧
    ∀ e ∈ applyMelodicEmbellishments [440, 466, 493] 1 0 "serene" []
        [(⟨0, 1, [466], [1], 1, 1, "Sine"⟩ : NoteEvent)] [],
      ∃ host ∈ [(⟨0, 1, [466], [1], 1, 1, "Sine"⟩ : NoteEvent)],
        host.start ≤ e.start ∧
        e.start + e.duration ≤ host.start + host.duration := by
  refine ⟨?_, by norm_num, ?_⟩
  · intro ev hev
    rw [List.mem_singleton.mp hev]
    norm_num
  · exact applyMelodicEmbellishments_within [440, 466, 493] 1 0 "serene" [] _ []
      (by intro ev hev; rw [List.mem_singleton.mp hev]; norm_num) (by norm_num)

/-! ## C4: reprise sections vs. their cached originals -/

theorem getD_abs_le (v : ℚ) (hv : 0 ≤ v) (l : List ℚ) (i : ℕ)
    (hl : ∀ o ∈ l, |o| ≤ v) : |l.getD i 0| ≤ v := by
  rcases lt_or_le i l.length with h | h
  · rw [List.getD_eq_getElem l 0 h]
    exact hl _ (List.getElem_mem h)
  · rw [List.getD_eq_default l 0 h]
    simpa using hv

theorem jitter_key (t1 t2 v o1 o2 s : ℚ) (ho1 : |o1| ≤ v) (ho2 : |o2| ≤ v) :
    |max 0 (s + o2) + t2 - (max 0 (s + o1) + t1) - (t2 - t1)| ≤ 2 * v := by
  have e1 : max 0 (s + o2) + t2 - (max 0 (s + o1) + t1) - (t2 - t1)
      = max (s + o2) 0 - max (s + o1) 0 := by
    rw [max_comm 0 (s + o2), max_comm 0 (s + o1)]; ring
  rw [e1]
  calc |max (s + o2) 0 - max (s + o1) 0| ≤ |(s + o2) - (s + o1)| :=
        abs_max_sub_max_le_abs _ _ _
    _ = |o2 + -o1| := by ring_nf
    _ ≤ |o2| + |-o1| := abs_add _ _
    _ = |o2| + |o1| := by rw [abs_neg]
    _ ≤ 2 * v := by linarith

/-- The start time of event `i` of a contoured, humanized, shifted
stream differs from its counterpart under other humanization draws and
another shift by at most twice the draw bound, beyond the shift
difference. -/
theorem humanized_start_jitter_le (cache : List NoteEvent) (d : ℚ)
    (tOffs1 vOffs1 tOffs2 vOffs2 : List ℚ) (t1 t2 v : ℚ)
    (hv : 0 ≤ v)
    (h1 : ∀ o ∈ tOffs1, |o| ≤ v) (h2 : ∀ o ∈ tOffs2, |o| ≤ v)
    (i : ℕ) (hi : i < cache.length) (dflt : NoteEvent) :
    |((shiftEvents t2 (humanizePart (applyDynamicContouring cache d)
        tOffs2 vOffs2)).getD i dflt).start
      - ((shiftEvents t1 (humanizePart (applyDynamicContouring cache d)
        tOffs1 vOffs1)).getD i dflt).start
      - (t2 - t1)| ≤ 2 * v := by
  have hlen : (applyDynamicContouring cache d).length = cache.length := by
    unfold applyDynamicContouring
    split_ifs
    · rfl
    · simp
  have hiC : i < (applyDynamicContouring cache d).length := hlen ▸ hi
  have hC : (applyDynamicContouring cache d)[i]?
      = some ((applyDynamicContouring cache d).get ⟨i, hiC⟩) :=
    List.getElem?_eq_getElem hiC
  have hs2 : ((shiftEvents t2 (humanizePart (applyDynamicContouring cache d)
        tOffs2 vOffs2)).getD i dflt).start
      = max 0 (((applyDynamicContouring cache d).get ⟨i, hiC⟩).start
          + tOffs2.getD i 0) + t2 := by
    simp [shiftEvents, humanizePart, List.getD_eq_getElem?_getD,
      List.getElem?_map, List.getElem?_enum, hC]
  have hs1 : ((shiftEvents t1 (humanizePart (applyDynamicContouring cache d)
        tOffs1 vOffs1)).getD i dflt).start
      = max 0 (((applyDynamicContouring cache d).get ⟨i, hiC⟩).start
          + tOffs1.getD i 0) + t1 := by
    simp [shiftEvents, humanizePart, List.getD_eq_getElem?_getD,
      List.getElem?_map, List.getElem?_enum, hC]
  rw [hs1, hs2]
  exact jitter_key t1 t2 v _ _ _ (getD_abs_le v hv tOffs1 i h1)
    (getD_abs_le v hv tOffs2 i h2)

/-- C4 counterexample: the reprise is humanized with fresh random
draws after the deep copy, so its assembled stream is not the cached
original's stream plus a constant.  With the original humanized by
zero offsets and the reprise by `[0, 1/100]` (a legal draw:
`1/100 ≤ (60 / 60) * 0.05`), the two start-time lists `[0, 1]` and
`[10, 1101/100]` differ by no constant. -/
theorem reprise_offset_counterexample :
    (shiftEvents 0 (humanizePart (applyDynamicContouring
        [⟨0, 1, [440], [0], 1/2, 1, "Sine"⟩,
         ⟨1, 1, [440], [0], 1/2, 1, "Sine"⟩] (1/2))
        [0, 0] [0, 0])).map NoteEvent.start = [0, 1] ∧
    (shiftEvents 10 (humanizePart (applyDynamicContouring
        [⟨0, 1, [440], [0], 1/2, 1, "Sine"⟩,
         ⟨1, 1, [440], [0], 1/2, 1, "Sine"⟩] (1/2))
        [0, 1/100] [0, 0])).map NoteEvent.start = [10, 1101/100] ∧
    (|(1:ℚ)/100| ≤ 60/60 * (5/100)) ∧
    ¬ ∃ c : ℚ, ([10, 1101/100] : List ℚ) = ([0, 1] : List ℚ).map (· + c) := by
  refine ⟨?_, ?_,
    by rw [show |(1:ℚ)/100| = 1/100 from abs_of_pos (by norm_num)]; norm_num,
    ?_⟩
  · norm_num [shiftEvents, humanizePart, applyDynamicContouring, List.enum,
      List.enumFrom, List.getD, sup_eq_max, max_def, inf_eq_min, min_def]
  · norm_num [shiftEvents, humanizePart, applyDynamicContouring, List.enum,
      List.enumFrom, List.getD, sup_eq_max, max_def, inf_eq_min, min_def]
  · rintro ⟨c, hc⟩
    simp only [List.map, List.cons.injEq] at hc
    obtain ⟨h1, h2, -⟩ := hc
    linarith

/-- C4 (amended): the reprised drum stream is exactly the cached drum
stream shifted by a constant (the drums bypass humanization), and the
reprised note streams equal the cached note streams up to the constant
shift plus a per-event timing jitter of at most twice the humanization
variance (`0.05` beat per pass); the jitter is generally non-zero, so
equality up to a constant offset alone fails (see the
counterexample). -/
theorem reprise_stream_amended :
    (∀ (cache : List NoteEvent) (t1 t2 : ℚ),
      shiftEvents t2 cache = (shiftEvents t1 cache).map
        (fun e => { e with start := e.start + (t2 - t1) })) ∧
    (∀ (cache : List NoteEvent) (d : ℚ)
        (tOffs1 vOffs1 tOffs2 vOffs2 : List ℚ) (t1 t2 v : ℚ),
      0 ≤ v → (∀ o ∈ tOffs1, |o| ≤ v) → (∀ o ∈ tOffs2, |o| ≤ v) →
      ∀ i, i < cache.length → ∀ dflt : NoteEvent,
      |((shiftEvents t2 (humanizePart (applyDynamicContouring cache d)
          tOffs2 vOffs2)).getD i dflt).start
        - ((shiftEvents t1 (humanizePart (applyDynamicContouring cache d)
          tOffs1 vOffs1)).getD i dflt).start
        - (t2 - t1)| ≤ 2 * v) := by
  constructor
  · intro cache t1 t2
    simp only [shiftEvents, List.map_map]
    refine List.map_congr_left fun e he => ?_
    simp only [Function.comp]
    congr 1
    ring
  · intro cache d tOffs1 vOffs1 tOffs2 vOffs2 t1 t2 v hv h1 h2 i hi dflt
    exact humanized_start_jitter_le cache d tOffs1 vOffs1 tOffs2 vOffs2
      t1 t2 v hv h1 h2 i hi dflt

/-- Witness for C4 (amended) on a one-event cache with draws `[0]` and
`[1/100]`, variance bound `1/20`, shifts `0` and `10`. -/
theorem reprise_stream_amended_witness :
    (0:ℚ) ≤ 1/20 ∧ (∀ o ∈ ([0] : List ℚ), |o| ≤ (1:ℚ)/20) ∧
    (∀ o ∈ ([1/100] : List ℚ), |o| ≤ (1:ℚ)/20) ∧
    (0 < ([(⟨0, 1, [440], [0], 1, 1, "Sine"⟩ : NoteEvent)]).length) ∧
    |((shiftEvents 10 (humanizePart (applyDynamicContouring
        [(⟨0, 1, [440], [0], 1, 1, "Sine"⟩ : NoteEvent)] 0)
        [1/100] [0])).getD 0 (⟨0, 0, [], [], 0, 0, ""⟩ : NoteEvent)).start
      - ((shiftEvents 0 (humanizePart (applyDynamicContouring
        [(⟨0, 1, [440], [0], 1, 1, "Sine"⟩ : NoteEvent)] 0)
        [0] [0])).getD 0 (⟨0, 0, [], [], 0, 0, ""⟩ : NoteEvent)).start
      - (10 - 0)| ≤ 2 * (1/20) := by
  have ha : ∀ o ∈ ([0] : List ℚ), |o| ≤ (1:ℚ)/20 := by
    intro o ho
    rw [List.mem_singleton.mp ho,
      show |(0:ℚ)| = 0 from abs_of_nonneg le_rfl]
    norm_num
  have hb : ∀ o ∈ ([1/100] : List ℚ), |o| ≤ (1:ℚ)/20 := by
    intro o ho
    rw [List.mem_singleton.mp ho,
      show |(1:ℚ)/100| = 1/100 from abs_of_pos (by norm_num)]
    norm_num
  exact ⟨by norm_num, ha, hb, by norm_num,
    reprise_stream_amended.2 [(⟨0, 1, [440], [0], 1, 1, "Sine"⟩ : NoteEvent)]
      0 [0] [0] [1/100] [0] 0 10 (1/20) (by norm_num) ha hb 0 (by norm_num)
      (⟨0, 0, [], [], 0, 0, ""⟩ : NoteEvent)⟩

/-- Witness for C1: the chain applied to the one-sample buffer `[0]`.
`masterChain` has no `Prop` hypotheses; this witness instantiates the
universally quantified membership at a concrete sample. -/
theorem masterChain_bounded_witness :
    Real.tanh (0 * 1.2) ∈ masterChain 1 (4/10) 5 [(0:ℝ)] ∧
    (-1 ≤ Real.tanh (0 * 1.2) ∧ Real.tanh (0 * 1.2) ≤ 1) := by
  have hrv : applyReverb 1 (4/10) [(0:ℝ)] = [0] := by
    simp [applyReverb, List.range, List.range.loop, reverbVal, clip1]
  have hmem : Real.tanh (0 * 1.2) ∈ masterChain 1 (4/10) 5 [(0:ℝ)] := by
    simp only [masterChain, hrv, applyFadeOut]
    norm_num [masterLimiter]
  exact ⟨hmem, masterChain_bounded 1 (4/10) 5 [0] _ hmem⟩

end MusicGen
